import Mathlib

/-!
Verification development for the Terraform lint ruleset.

The source text of one file is modelled as a `List Char` (Rust iterates
`str::chars()` and measures offsets in UTF-8 bytes; we keep byte offsets
explicit through `Char.utf8Size`).  Each rule's `check` receives the text and
returns the list of diagnostics it reports, in report order (the diagnostic
sink is append-only, so the returned list is the sink's content).
-/

/-- LSP-style position, zero-based line and character (source: forseti-sdk
`Position`; field layout per spec section 3). -/
structure Position where
  line : Nat
  character : Nat
deriving DecidableEq, Repr

/-- Half-open range over the source text (source: forseti-sdk `Range`).
The Rust field `end` is a Lean keyword, so it is named `endPos` here. -/
structure Range where
  start : Position
  endPos : Position
deriving DecidableEq, Repr

/-- A reported issue (source: forseti-sdk `Diagnostic`, as constructed by the
rules in this repository). -/
structure Diagnostic where
  rule_id : String
  message : String
  severity : String
  range : Range
  code : Option String
  suggest : Option String
  docs_url : Option String
deriving DecidableEq, Repr

/-- Total UTF-8 byte length of a character list (Rust `str::len` on the
corresponding string slice). -/
def utf8LenL : List Char → Nat
  | [] => 0
  | c :: cs => c.utf8Size + utf8LenL cs

/-- Loop body of `TerraformUtils::offset_to_position` (src/utils.rs):
walk the characters, stopping as soon as the accumulated byte offset reaches
the target; `'\n'` advances the line and resets the column, any other char
advances the column by one scalar. -/
def otpAux : List Char → Nat → Nat → Nat → Nat → Position
  | [], _, line, chr, _ => ⟨line, chr⟩
  | c :: cs, offset, line, chr, cur =>
    if offset ≤ cur then ⟨line, chr⟩
    else if c = '\n' then otpAux cs offset (line + 1) 0 (cur + c.utf8Size)
    else otpAux cs offset line (chr + 1) (cur + c.utf8Size)

/-- `TerraformUtils::offset_to_position` (src/utils.rs lines 15-36): convert a
byte offset to a line/character `Position`.  The forseti-sdk `LineIndex::to_pos`
used by the text-pattern rules is modelled by this same conversion, per spec
section 4.1 (the Position Index contract shared by every component). -/
def offset_to_position (offset : Nat) (text : List Char) : Position :=
  otpAux text offset 0 0 0

/-- Split a character list at every `'\n'` (the pieces of Rust
`str::split('\n')`; always nonempty, no piece contains `'\n'`). -/
def linesRaw : List Char → List (List Char)
  | [] => [[]]
  | c :: cs =>
    if c = '\n' then [] :: linesRaw cs
    else
      match linesRaw cs with
      | [] => [[c]]
      | l :: ls => (c :: l) :: ls

/-- Strip one trailing `'\r'`, as Rust `str::lines` does on every piece that
was terminated by a `'\n'` (handling `"\r\n"` line endings). -/
def stripTrailCR (l : List Char) : List Char :=
  if l.getLast? = some '\r' then l.dropLast else l

/-- Rust `str::lines`: split at `'\n'`, strip a trailing `'\r'` from every
piece that had a terminator, and drop the final piece when it is empty (a
trailing line terminator does not create an extra empty line). -/
def rustLines (t : List Char) : List (List Char) :=
  (linesRaw t).dropLast.map stripTrailCR ++
    (match (linesRaw t).getLast? with
     | some [] => []
     | some l => [l]
     | none => [])

/-- Number of `'\n'` characters in a list. -/
def countNL (t : List Char) : Nat := t.countP (fun c => c = '\n')

/-- The true byte offset at which line `n` starts in the text: the number of
bytes up to and including the `n`-th `'\n'` (clamped to the end of text).
This is the reference value diagnostics' line-start computations are compared
against. -/
def line_start_offset : List Char → Nat → Nat
  | _, 0 => 0
  | [], _ + 1 => 0
  | c :: cs, n + 1 =>
    if c = '\n' then c.utf8Size + line_start_offset cs n
    else c.utf8Size + line_start_offset cs (n + 1)

/-! ## A matcher with Rust-regex preference semantics

The two text-pattern rules use the Rust `regex` crate on fixed patterns built
from: literals (optionally case-insensitive via the `(?i)` flag), single
character classes, greedy `*` / `{n,}` repetition of a class, alternation and
concatenation.  The crate's leftmost-first ("preference order") semantics are
modelled by computing, for a regex and an input suffix, the list of possible
remainders in preference order (greedy repetitions longest-first, alternations
left-first, concatenation backtracking the right component first) and taking
the head.  `{n,}` repetition is expressed as `n` copies of the class followed
by a greedy star. -/

/-- Regex fragment forms used by the rules' patterns. -/
inductive Re where
  | lit (ci : Bool) (s : List Char)
  | cls (p : Char → Bool)
  | star (p : Char → Bool)
  | alt (r₁ r₂ : Re)
  | seq (r₁ r₂ : Re)

/-- Character comparison, optionally ASCII-case-insensitive (models the
`(?i)` flag on the ASCII texts the patterns target). -/
def ciEq (ci : Bool) (a b : Char) : Bool :=
  if ci then a.toLower == b.toLower else a == b

/-- Strip a literal from the front of the input, if present. -/
def stripLit (ci : Bool) : List Char → List Char → Option (List Char)
  | [], cs => some cs
  | _ :: _, [] => none
  | p :: ps, c :: cs => if ciEq ci p c then stripLit ci ps cs else none

/-- Remainders after consuming a greedy class star, longest consumption
first. -/
def starRems (p : Char → Bool) : List Char → List (List Char)
  | [] => [[]]
  | c :: cs => if p c then starRems p cs ++ [c :: cs] else [c :: cs]

/-- All remainders (suffixes of the input left over) after matching `r` at the
front of the input, in preference order. -/
def reMatch : Re → List Char → List (List Char)
  | .lit ci s, cs =>
    match stripLit ci s cs with
    | some rem => [rem]
    | none => []
  | .cls _, [] => []
  | .cls p, c :: cs => if p c then [cs] else []
  | .star p, cs => starRems p cs
  | .alt r₁ r₂, cs => reMatch r₁ cs ++ reMatch r₂ cs
  | .seq r₁ r₂, cs => (reMatch r₁ cs).flatMap (reMatch r₂)

/-- `Regex::find` (leftmost-first): try each start position left to right and
return the byte span `(start, end)` of the preferred match at the first
position that matches. -/
def reFindAux (r : Re) : List Char → Nat → Option (Nat × Nat)
  | cs, pos =>
    match (reMatch r cs).head? with
    | some rem => some (pos, pos + (utf8LenL cs - utf8LenL rem))
    | none =>
      match cs with
      | [] => none
      | c :: cs' => reFindAux r cs' (pos + c.utf8Size)

/-- `Regex::find` on a whole line, returning the byte span of the first
match. -/
def reFind (r : Re) (line : List Char) : Option (Nat × Nat) :=
  reFindAux r line 0

/-- `Regex::find_iter`: successive non-overlapping matches, each search
resuming at the end of the previous match (advancing one character on an
empty match, which the rules' patterns never produce).  The fuel argument
only bounds the number of iterations so that the recursion is structural;
every iteration consumes at least one character of the input, so a fuel of
`length + 1` never runs out. -/
def reFindIterAux (r : Re) : Nat → List Char → Nat → List (Nat × Nat)
  | 0, _, _ => []
  | fuel + 1, cs, pos =>
    match (reMatch r cs).head? with
    | some rem =>
      if rem.length < cs.length then
        (pos, pos + (utf8LenL cs - utf8LenL rem)) ::
          reFindIterAux r fuel rem (pos + (utf8LenL cs - utf8LenL rem))
      else
        match cs with
        | [] => [(pos, pos)]
        | c :: cs' => (pos, pos) :: reFindIterAux r fuel cs' (pos + c.utf8Size)
    | none =>
      match cs with
      | [] => []
      | c :: cs' => reFindIterAux r fuel cs' (pos + c.utf8Size)

/-- `Regex::find_iter` over a whole line. -/
def reFindIter (r : Re) (line : List Char) : List (Nat × Nat) :=
  reFindIterAux r (line.length + 1) line 0

/-- Drop the first `n` bytes of a character list (byte-offset slicing start;
offsets produced by the matcher always fall on character boundaries). -/
def byteDrop : List Char → Nat → List Char
  | cs, 0 => cs
  | [], _ + 1 => []
  | c :: cs, n + 1 => byteDrop cs (n + 1 - c.utf8Size)

/-- Take the first `n` bytes of a character list. -/
def byteTake : List Char → Nat → List Char
  | _, 0 => []
  | [], _ + 1 => []
  | c :: cs, n + 1 => c :: byteTake cs (n + 1 - c.utf8Size)

/-- Rust byte-offset slice `&line[s..e]`. -/
def byteSlice (cs : List Char) (s e : Nat) : List Char :=
  byteTake (byteDrop cs s) (e - s)

/-! ## Rule: no-hardcoded-credentials (src/rules/no_hardcoded_credentials.rs) -/

/-- Rust-regex `\s`: the Unicode White_Space characters. -/
def rustIsSpace (c : Char) : Bool :=
  c == ' ' || c == '\t' || c == '\n' || c == '\x0b' || c == '\x0c' || c == '\r' ||
  c == '\x85' || c == '\xa0' || c == '\u1680' ||
  ('\u2000' ≤ c && c ≤ '\u200a') ||
  c == '\u2028' || c == '\u2029' || c == '\u202f' || c == '\u205f' || c == '\u3000'

/-- The class `["']`. -/
def isQuoteC (c : Char) : Bool := c == '"' || c == '\x27'

/-- The class `[^"']`. -/
def nonQuoteC (c : Char) : Bool := !isQuoteC c

/-- Case-insensitive alternation of literal words, left preferred first. -/
def wordAlt : List (List Char) → Re
  | [] => .lit true []
  | [w] => .lit true w
  | w :: ws => .alt (.lit true w) (wordAlt ws)

/-- Greedy `{n,}` repetition of a class: `n` mandatory copies then a greedy
star. -/
def clsRepGe (p : Char → Bool) : Nat → Re
  | 0 => .star p
  | n + 1 => .seq (.cls p) (clsRepGe p n)

/-- Concatenation of a list of fragments. -/
def seqL : List Re → Re
  | [] => .lit false []
  | [r] => r
  | r :: rs => .seq r (seqL rs)

/-- Source pattern string 1 (password family). -/
def credPat1 : String :=
  "(?i)(password|passwd|pwd)\\s*=\\s*[\"\x27][^\"\x27]\x7b1,\x7d[\"\x27]"

/-- Source pattern string 2 (secret/token/key family). -/
def credPat2 : String :=
  "(?i)(secret|token|key)\\s*=\\s*[\"\x27][^\"\x27]\x7b8,\x7d[\"\x27]"

/-- Source pattern string 3 (access key family). -/
def credPat3 : String :=
  "(?i)(access_key|access-key)\\s*=\\s*[\"\x27][A-Z0-9]\x7b16,\x7d[\"\x27]"

/-- Source pattern string 4 (private key family). -/
def credPat4 : String :=
  "(?i)(private_key|private-key)\\s*=\\s*[\"\x27]-----BEGIN"

/-- Source pattern string 5 (api key family). -/
def credPat5 : String :=
  "(?i)(api_key|api-key)\\s*=\\s*[\"\x27][A-Za-z0-9]\x7b20,\x7d[\"\x27]"

/-- Message for pattern 1. -/
def credMsg1 : String := "Hardcoded password detected"

/-- Message for pattern 2. -/
def credMsg2 : String := "Hardcoded secret/token/key detected"

/-- Message for pattern 3. -/
def credMsg3 : String := "Hardcoded access key detected"

/-- Message for pattern 4. -/
def credMsg4 : String := "Hardcoded private key detected"

/-- Message for pattern 5. -/
def credMsg5 : String := "Hardcoded API key detected"

/-- The ordered `patterns` vector of `NoHardcodedCredentialsRule::check`
(source lines 24-30). -/
def credPatternStrings : List (String × String) :=
  [(credPat1, credMsg1), (credPat2, credMsg2), (credPat3, credMsg3),
   (credPat4, credMsg4), (credPat5, credMsg5)]

/-- Compiled form of `credPat1`.  Under the `(?i)` flag literals compare
case-insensitively. -/
def credRe1 : Re :=
  seqL [wordAlt ["password".toList, "passwd".toList, "pwd".toList],
    .star rustIsSpace, .cls (· == '='), .star rustIsSpace,
    .cls isQuoteC, clsRepGe nonQuoteC 1, .cls isQuoteC]

/-- Compiled form of `credPat2`. -/
def credRe2 : Re :=
  seqL [wordAlt ["secret".toList, "token".toList, "key".toList],
    .star rustIsSpace, .cls (· == '='), .star rustIsSpace,
    .cls isQuoteC, clsRepGe nonQuoteC 8, .cls isQuoteC]

/-- Compiled form of `credPat3`.  Under `(?i)` the class `[A-Z0-9]` is case
folded, so it accepts exactly the ASCII alphanumerics. -/
def credRe3 : Re :=
  seqL [wordAlt ["access_key".toList, "access-key".toList],
    .star rustIsSpace, .cls (· == '='), .star rustIsSpace,
    .cls isQuoteC, clsRepGe Char.isAlphanum 16, .cls isQuoteC]

/-- Compiled form of `credPat4` (the `-----BEGIN` literal is itself under the
`(?i)` flag). -/
def credRe4 : Re :=
  seqL [wordAlt ["private_key".toList, "private-key".toList],
    .star rustIsSpace, .cls (· == '='), .star rustIsSpace,
    .cls isQuoteC, .lit true "-----BEGIN".toList]

/-- Compiled form of `credPat5`. -/
def credRe5 : Re :=
  seqL [wordAlt ["api_key".toList, "api-key".toList],
    .star rustIsSpace, .cls (· == '='), .star rustIsSpace,
    .cls isQuoteC, clsRepGe Char.isAlphanum 20, .cls isQuoteC]

/-- `Regex::new` restricted to the rule's five built-in pattern strings,
which are statically valid and compile to the automata above (the regex
engine itself is the external `regex` crate). -/
def regexNew (s : String) : Option Re :=
  if s = credPat1 then some credRe1
  else if s = credPat2 then some credRe2
  else if s = credPat3 then some credRe3
  else if s = credPat4 then some credRe4
  else if s = credPat5 then some credRe5
  else none

/-- The expression `ctx.text.lines().take(line_num).map(|l| l.len() + 1).sum()`
computing a line's starting byte offset in both text-pattern rules. -/
def line_start_sum (t : List Char) (line_num : Nat) : Nat :=
  ((((rustLines t).take line_num).map (fun l => utf8LenL l + 1))).sum

/-- The `Diagnostic` literal built by `NoHardcodedCredentialsRule::check`
(source lines 40-53) for a match spanning bytes `[s, e)` of line
`line_num`. -/
def mk_cred_diag (message : String) (t : List Char) (line_num s e : Nat) :
    Diagnostic :=
  { rule_id := "no-hardcoded-credentials"
    message := message
    severity := "error"
    range :=
      { start := offset_to_position (line_start_sum t line_num + s) t
        endPos := offset_to_position (line_start_sum t line_num + e) t }
    code := some "CREDENTIALS"
    suggest := none
    docs_url := some "https://forseti.dev/rules/terraform/no-hardcoded-credentials" }

/-- The inner loop of `NoHardcodedCredentialsRule::check`: enumerate the lines
and report on the first match of the pattern in each line. -/
def credLines (r : Re) (msg : String) (t : List Char) :
    Nat → List (List Char) → List Diagnostic
  | _, [] => []
  | n, line :: rest =>
    (match reFind r line with
     | some (s, e) => [mk_cred_diag msg t n s e]
     | none => []) ++ credLines r msg t (n + 1) rest

/-- Diagnostics one compiled pattern contributes over the whole text. -/
def credPerPattern (r : Re) (msg : String) (t : List Char) : List Diagnostic :=
  credLines r msg t 0 (rustLines t)

/-- `NoHardcodedCredentialsRule::check`, parameterized by the outcome of
`Regex::new` on each pattern string: `if let Ok(pattern) = Regex::new(...)`
runs the line scan, otherwise the pattern is skipped (source lines 32-34). -/
def NoHardcodedCredentialsRule.checkGen (regex_new : String → Option Re)
    (t : List Char) : List Diagnostic :=
  credPatternStrings.flatMap fun pm =>
    match regex_new pm.1 with
    | some r => credPerPattern r pm.2 t
    | none => []

/-- `NoHardcodedCredentialsRule::check` with the actual (always-successful)
compilation of the five built-in patterns. -/
def NoHardcodedCredentialsRule.check (t : List Char) : List Diagnostic :=
  NoHardcodedCredentialsRule.checkGen regexNew t

/-- The five compiled `(pattern, message)` pairs in source order. -/
def credCompiled : List (Re × String) :=
  [(credRe1, credMsg1), (credRe2, credMsg2), (credRe3, credMsg3),
   (credRe4, credMsg4), (credRe5, credMsg5)]

/-! ## Rule: no-deprecated-interpolation
(src/rules/no_deprecated_interpolation.rs) -/

/-- Compiled form of the pattern `"[^"]*\$\{([^}]+)\}[^"]*"` (source line 25):
a quoted string containing a `$`-brace interpolation span. -/
def depRe : Re :=
  seqL [.cls (· == '"'), .star (· != '"'), .lit false ['$', '\x7b'],
    clsRepGe (· != '\x7d') 1, .cls (· == '\x7d'), .star (· != '"'),
    .cls (· == '"')]

/-- The suppression test of `NoDeprecatedInterpolationRule::check` (source
lines 28-37): the matched substring (quotes included) is treated as a complex
interpolation when it contains a space, `+`, `*`, `/` or `(`. -/
def complexInterpolation (m : List Char) : Bool :=
  m.contains ' ' || m.contains '+' || m.contains '*' || m.contains '/' ||
  m.contains '\x28'

/-- The `Diagnostic` literal built by `NoDeprecatedInterpolationRule::check`
(source lines 43-56). -/
def mk_dep_diag (t : List Char) (line_num s e : Nat) : Diagnostic :=
  { rule_id := "no-deprecated-interpolation"
    message := "Deprecated interpolation syntax found. Use direct variable reference instead"
    severity := "warn"
    range :=
      { start := offset_to_position (line_start_sum t line_num + s) t
        endPos := offset_to_position (line_start_sum t line_num + e) t }
    code := some "DEPRECATED_INTERPOLATION"
    suggest := none
    docs_url := some "https://forseti.dev/rules/terraform/no-deprecated-interpolation" }

/-- Diagnostics reported for one line: every match of the pattern, except
those suppressed as complex interpolations. -/
def depLineDiags (t : List Char) (n : Nat) (line : List Char) :
    List Diagnostic :=
  (reFindIter depRe line).filterMap fun se =>
    if complexInterpolation (byteSlice line se.1 se.2) then none
    else some (mk_dep_diag t n se.1 se.2)

/-- The line enumeration of `NoDeprecatedInterpolationRule::check`. -/
def depLines (t : List Char) : Nat → List (List Char) → List Diagnostic
  | _, [] => []
  | n, line :: rest => depLineDiags t n line ++ depLines t (n + 1) rest

/-- `NoDeprecatedInterpolationRule::check` (source lines 20-59). -/
def NoDeprecatedInterpolationRule.check (t : List Char) : List Diagnostic :=
  depLines t 0 (rustLines t)

/-! ## Structural document model (hcl crate `Body`/`Block`/`Expression`)

Per spec section 3: a document is an ordered sequence of blocks; a block has
an identifier, positional string labels, and a nested body of attributes
(key-expression pairs) and further blocks.  The rules only ever project a
body's attribute list and block list, so a body is modelled by those two
lists.  Labels and object keys are modelled as plain strings: per spec
section 9 the Rust `Debug`-format-and-trim helpers
(`block_label_to_string`, `debug_to_string`) stand for exactly this
already-decoded string value. -/

/-- HCL expression (tagged variant per spec section 3). -/
inductive Expression where
  | str (s : String)
  | num (n : Int)
  | boolean (b : Bool)
  | object (entries : List (String × Expression))
  | array (items : List Expression)
  | other

/-- HCL block: identifier, labels, and the attributes and nested blocks of
its body. -/
inductive Block where
  | mk (identifier : String) (labels : List String)
      (attrs : List (String × Expression)) (blocks : List Block)

/-- Block identifier. -/
def Block.identifier : Block → String
  | .mk i _ _ _ => i

/-- Block labels. -/
def Block.labels : Block → List String
  | .mk _ ls _ _ => ls

/-- Attributes of the block's body. -/
def Block.attrs : Block → List (String × Expression)
  | .mk _ _ as_ _ => as_

/-- Nested blocks of the block's body. -/
def Block.blocks : Block → List Block
  | .mk _ _ _ bs => bs

/-- A parsed document body: attributes and top-level blocks. -/
structure Body where
  attributes : List (String × Expression)
  blocks : List Block

/-- `TerraformUtils::get_block_name` (src/utils.rs lines 49-61): second label
for `resource`/`data`, first label for `variable`/`output`/`locals`, nothing
otherwise. -/
def get_block_name (block : Block) (block_type : String) : Option String :=
  if block_type = "resource" ∨ block_type = "data" then
    block.labels[1]?
  else if block_type = "variable" ∨ block_type = "output" ∨
      block_type = "locals" then
    block.labels[0]?
  else none

/-- `TerraformUtils::has_description_attribute` (src/utils.rs lines 157-163). -/
def has_description_attribute (block : Block) : Bool :=
  block.attrs.any (fun attr => attr.1 == "description")

/-- `TerraformUtils::capitalize_first` (src/utils.rs lines 166-172). -/
def capitalize_first (s : String) : String :=
  match s.toList with
  | [] => ""
  | c :: cs => String.mk (c.toUpper :: cs)

/-- Rust `str::find` of a literal needle: byte offset of its first
occurrence. -/
def findSub : List Char → List Char → Option Nat
  | cs, pat =>
    if pat.isPrefixOf cs then some 0
    else
      match cs with
      | [] => none
      | c :: cs' => (findSub cs' pat).map (· + c.utf8Size)

/-- The needle `format!("{} \"{}\"", block_type, block_name)` searched for by
the missing-description diagnostic. -/
def desc_block_text (block_type block_name : String) : List Char :=
  (block_type ++ " \"" ++ block_name ++ "\"").toList

/-- `TerraformUtils::create_missing_description_diagnostic` (src/utils.rs
lines 64-92): locate the first occurrence of `<block_type> "<name>"` in the
text (byte offset 0 when absent) and span exactly that substring. -/
def create_missing_description_diagnostic (rule_id block_type block_name :
    String) (text : List Char) : Diagnostic :=
  let block_text := desc_block_text block_type block_name
  let block_start := (findSub text block_text).getD 0
  { rule_id := rule_id
    message := capitalize_first block_type ++ " \x27" ++ block_name ++
      "\x27 should have a description"
    severity := "warn"
    range :=
      { start := offset_to_position block_start text
        endPos := offset_to_position (block_start + utf8LenL block_text) text }
    code := some "MISSING_DESCRIPTION"
    suggest := none
    docs_url := some ("https://forseti.dev/rules/terraform/" ++ rule_id) }

/-- `TerraformUtils::create_naming_convention_diagnostic` (src/utils.rs lines
95-130): prefer the first quoted occurrence `"name"` (skipping the opening
quote), fall back to the first bare occurrence, then offset 0. -/
def create_naming_convention_diagnostic (block_type block_name : String)
    (text : List Char) : Diagnostic :=
  let name_pattern := ('"' :: block_name.toList) ++ ['"']
  let name_start :=
    match findSub text name_pattern with
    | some p => p + 1
    | none => (findSub text block_name.toList).getD 0
  { rule_id := "resource-naming-convention"
    message := block_type ++ " name \x27" ++ block_name ++
      "\x27 should follow snake_case convention"
    severity := "warn"
    range :=
      { start := offset_to_position name_start text
        endPos :=
          offset_to_position (name_start + utf8LenL block_name.toList) text }
    code := some "NAMING_CONVENTION"
    suggest := none
    docs_url := some
      "https://forseti.dev/rules/terraform/resource-naming-convention" }

/-- The needle `format!("{} =", provider_name)` searched for by the
provider-version diagnostic. -/
def provider_needle_text (provider_name : String) : List Char :=
  (provider_name ++ " =").toList

/-- `TerraformUtils::create_provider_version_diagnostic` (src/utils.rs lines
131-155): range starts at the first occurrence of `<provider_name> =` and
spans the provider name's byte length. -/
def create_provider_version_diagnostic (provider_name : String)
    (text : List Char) : Diagnostic :=
  let provider_text := provider_needle_text provider_name
  let provider_start := (findSub text provider_text).getD 0
  { rule_id := "require-provider-version"
    message := "Provider \x27" ++ provider_name ++
      "\x27 should specify a version constraint"
    severity := "warn"
    range :=
      { start := offset_to_position provider_start text
        endPos := offset_to_position
          (provider_start + utf8LenL provider_name.toList) text }
    code := some "PROVIDER_VERSION"
    suggest := none
    docs_url := some
      "https://forseti.dev/rules/terraform/require-provider-version" }

/-- The `HclRule` trait's default `check` (src/utils.rs lines 176-187): parse
the text and dispatch to the rule's `check_hcl` on success; silently skip the
file when parsing fails.  The parser (`hcl::from_str`, an external crate) is
a parameter returning `none` on malformed input. -/
def HclRule.check (parse_hcl : List Char → Option Body)
    (check_hcl : Body → List Char → List Diagnostic) (text : List Char) :
    List Diagnostic :=
  match parse_hcl text with
  | some body => check_hcl body text
  | none => []

/-- ASCII lower-case letter. -/
def isLowerAZ (c : Char) : Bool := 'a' ≤ c && c ≤ 'z'

/-- ASCII digit. -/
def isDigit09 (c : Char) : Bool := '0' ≤ c && c ≤ '9'

/-- `Regex::is_match` of the anchored pattern `^[a-z][a-z0-9_]*$` used by the
naming rule: whole-string match of lowercase snake_case starting with a
letter. -/
def valid_name_is_match (s : String) : Bool :=
  match s.toList with
  | [] => false
  | c :: cs => isLowerAZ c && cs.all (fun d => isLowerAZ d || isDigit09 d || d == '_')

/-- `ResourceNamingConventionRule::check_hcl`
(src/rules/resource_naming_convention.rs lines 27-50). -/
def ResourceNamingConventionRule.check_hcl (body : Body) (text : List Char) :
    List Diagnostic :=
  body.blocks.filterMap fun block =>
    if block.identifier == "resource" || block.identifier == "data" ||
        block.identifier == "variable" || block.identifier == "output" ||
        block.identifier == "locals" then
      match get_block_name block block.identifier with
      | some name =>
        if !valid_name_is_match name then
          some (create_naming_convention_diagnostic block.identifier name text)
        else none
      | none => none
    else none

/-- `VariableDescriptionRequiredRule::check_hcl`
(src/rules/variable_description_required.rs lines 26-44). -/
def VariableDescriptionRequiredRule.check_hcl (body : Body)
    (text : List Char) : List Diagnostic :=
  body.blocks.filterMap fun block =>
    if block.identifier == "variable" then
      match get_block_name block "variable" with
      | some variable_name =>
        if !has_description_attribute block then
          some (create_missing_description_diagnostic
            "variable-description-required" "variable" variable_name text)
        else none
      | none => none
    else none

/-- `OutputDescriptionRequiredRule::check_hcl`
(src/rules/output_description_required.rs lines 26-44). -/
def OutputDescriptionRequiredRule.check_hcl (body : Body)
    (text : List Char) : List Diagnostic :=
  body.blocks.filterMap fun block =>
    if block.identifier == "output" then
      match get_block_name block "output" with
      | some output_name =>
        if !has_description_attribute block then
          some (create_missing_description_diagnostic
            "output-description-required" "output" output_name text)
        else none
      | none => none
    else none

/-- Whether a provider attribute's value counts as versioned: an object
expression containing a key equal to `version`
(src/rules/require_provider_version.rs lines 52-59; object keys are plain
strings per spec section 9). -/
def providerHasVersion : Expression → Bool
  | .object obj => obj.any (fun kv => kv.1 == "version")
  | _ => false

/-- `RequireProviderVersionRule::check_provider_entries`
(src/rules/require_provider_version.rs lines 47-70). -/
def RequireProviderVersionRule.check_provider_entries
    (required_providers_block : Block) (text : List Char) : List Diagnostic :=
  required_providers_block.attrs.filterMap fun attr =>
    if !providerHasVersion attr.2 then
      some (create_provider_version_diagnostic attr.1 text)
    else none

/-- `RequireProviderVersionRule::check_required_providers_block`
(src/rules/require_provider_version.rs lines 38-45). -/
def RequireProviderVersionRule.check_required_providers_block
    (terraform_block : Block) (text : List Char) : List Diagnostic :=
  terraform_block.blocks.flatMap fun nested_block =>
    if nested_block.identifier == "required_providers" then
      RequireProviderVersionRule.check_provider_entries nested_block text
    else []

/-- `RequireProviderVersionRule::check_hcl`
(src/rules/require_provider_version.rs lines 29-36). -/
def RequireProviderVersionRule.check_hcl (body : Body) (text : List Char) :
    List Diagnostic :=
  body.blocks.flatMap fun block =>
    if block.identifier == "terraform" then
      RequireProviderVersionRule.check_required_providers_block block text
    else []

/-- One file's analysis by the whole ruleset, rules in registration order
(`create_terraform_ruleset`, src/main.rs lines 105-113); the structural rules
go through the shared `HclRule.check` skeleton with the given parser. -/
def runRuleset (parse_hcl : List Char → Option Body) (t : List Char) :
    List Diagnostic :=
  NoHardcodedCredentialsRule.check t ++
  HclRule.check parse_hcl RequireProviderVersionRule.check_hcl t ++
  NoDeprecatedInterpolationRule.check t ++
  HclRule.check parse_hcl ResourceNamingConventionRule.check_hcl t ++
  HclRule.check parse_hcl VariableDescriptionRequiredRule.check_hcl t ++
  HclRule.check parse_hcl OutputDescriptionRequiredRule.check_hcl t

/-! ## Auxiliary definitions used by the claim statements -/

/-- Lexicographic order on positions: by line, then by character. -/
def posLe (p q : Position) : Prop :=
  p.line < q.line ∨ (p.line = q.line ∧ p.character ≤ q.character)

instance (p q : Position) : Decidable (posLe p q) := by
  unfold posLe; exact inferInstance

/-- A block the naming rule must flag: a checked block kind whose extracted
name exists and fails the snake_case pattern. -/
def naming_violation (block : Block) : Bool :=
  (block.identifier == "resource" || block.identifier == "data" ||
    block.identifier == "variable" || block.identifier == "output" ||
    block.identifier == "locals") &&
  (match get_block_name block block.identifier with
   | some name => !valid_name_is_match name
   | none => false)

/-- A `variable` block the description rule must flag. -/
def var_desc_violation (block : Block) : Bool :=
  block.identifier == "variable" && (get_block_name block "variable").isSome &&
  !has_description_attribute block

/-- An `output` block the description rule must flag. -/
def out_desc_violation (block : Block) : Bool :=
  block.identifier == "output" && (get_block_name block "output").isSome &&
  !has_description_attribute block

/-- Number of provider entries of a document that lack a version: attributes
of `required_providers` blocks nested in `terraform` blocks whose value is not
an object with a `version` key. -/
def provider_violations (body : Body) : Nat :=
  (body.blocks.map (fun block =>
    if block.identifier == "terraform" then
      (block.blocks.map (fun nested =>
        if nested.identifier == "required_providers" then
          nested.attrs.countP (fun attr => !providerHasVersion attr.2)
        else 0)).sum
    else 0)).sum

/-! ## Basic facts about byte lengths and the position conversion -/

theorem utf8LenL_append (a b : List Char) :
    utf8LenL (a ++ b) = utf8LenL a + utf8LenL b := by
  induction a with
  | nil => simp [utf8LenL]
  | cons c cs ih => simp [utf8LenL, ih]; omega

theorem utf8LenL_eq_zero {a : List Char} (h : utf8LenL a = 0) : a = [] := by
  cases a with
  | nil => rfl
  | cons c cs =>
    exfalso
    have hc := Char.utf8Size_pos c
    simp [utf8LenL] at h
    omega

theorem posLe_refl (p : Position) : posLe p p := by
  unfold posLe; right; exact ⟨rfl, le_refl _⟩

theorem otpAux_start_le (cs : List Char) (offset : Nat) {l c : Nat}
    (cur : Nat) {l₀ c₀ : Nat} (h : posLe ⟨l₀, c₀⟩ ⟨l, c⟩) :
    posLe ⟨l₀, c₀⟩ (otpAux cs offset l c cur) := by
  induction cs generalizing l c cur with
  | nil => simpa [otpAux] using h
  | cons ch cs ih =>
    simp only [otpAux]
    by_cases h1 : offset ≤ cur
    · rw [if_pos h1]; exact h
    · rw [if_neg h1]
      by_cases h2 : ch = '\n'
      · rw [if_pos h2]
        apply ih
        rcases h with h | ⟨h, _⟩
        · exact Or.inl (Nat.lt_succ_of_lt h)
        · exact Or.inl (h ▸ Nat.lt_succ_self _)
      · rw [if_neg h2]
        apply ih
        rcases h with h | ⟨h, h'⟩
        · exact Or.inl h
        · exact Or.inr ⟨h, Nat.le_succ_of_le h'⟩

theorem otpAux_mono (cs : List Char) (o₁ o₂ : Nat) (l c cur : Nat)
    (h : o₁ ≤ o₂) :
    posLe (otpAux cs o₁ l c cur) (otpAux cs o₂ l c cur) := by
  induction cs generalizing l c cur with
  | nil => exact posLe_refl _
  | cons ch cs ih =>
    simp only [otpAux]
    by_cases h1 : o₁ ≤ cur
    · rw [if_pos h1]
      by_cases h2 : o₂ ≤ cur
      · rw [if_pos h2]; exact posLe_refl _
      · rw [if_neg h2]
        by_cases hn : ch = '\n'
        · rw [if_pos hn]
          exact otpAux_start_le _ _ _ (Or.inl (Nat.lt_succ_self _))
        · rw [if_neg hn]
          exact otpAux_start_le _ _ _ (Or.inr ⟨rfl, Nat.le_succ _⟩)
    · have h2 : ¬ o₂ ≤ cur := fun hh => h1 (le_trans h hh)
      rw [if_neg h1, if_neg h2]
      by_cases hn : ch = '\n'
      · rw [if_pos hn, if_pos hn]; exact ih _ _ _
      · rw [if_neg hn, if_neg hn]; exact ih _ _ _

/-- Claim C8: the byte-offset-to-position conversion is monotone — for every
source text, if `o₁ < o₂` then the position computed for `o₁` is not
lexicographically greater (line first, then character) than the position
computed for `o₂`. -/
theorem offset_to_position_monotone (text : List Char) (o₁ o₂ : Nat)
    (h : o₁ < o₂) :
    posLe (offset_to_position o₁ text) (offset_to_position o₂ text) :=
  otpAux_mono text o₁ o₂ 0 0 0 (Nat.le_of_lt h)

theorem offset_to_position_monotone_witness :
    (1 < 5) ∧
    posLe (offset_to_position 1 "ab\ncd".toList)
      (offset_to_position 5 "ab\ncd".toList) :=
  ⟨by decide, offset_to_position_monotone "ab\ncd".toList 1 5 (by decide)⟩

/-! ## Facts about line splitting -/

theorem line_start_offset_zero (t : List Char) : line_start_offset t 0 = 0 := by
  cases t <;> rfl

theorem linesRaw_ne_nil (t : List Char) : linesRaw t ≠ [] := by
  cases t with
  | nil => simp [linesRaw]
  | cons c cs =>
    simp only [linesRaw]
    by_cases h : c = '\n'
    · rw [if_pos h]; simp
    · rw [if_neg h]
      cases hl : linesRaw cs <;> simp

theorem linesRaw_mem_subset {t l : List Char} (hl : l ∈ linesRaw t) {c : Char}
    (hc : c ∈ l) : c ∈ t := by
  induction t generalizing l with
  | nil =>
    simp [linesRaw] at hl
    subst hl
    simp at hc
  | cons c₀ cs ih =>
    simp only [linesRaw] at hl
    by_cases h : c₀ = '\n'
    · rw [if_pos h] at hl
      rcases List.mem_cons.mp hl with rfl | hl
      · simp at hc
      · exact List.mem_cons_of_mem _ (ih hl hc)
    · rw [if_neg h] at hl
      cases hcase : linesRaw cs with
      | nil => exact absurd hcase (linesRaw_ne_nil cs)
      | cons l₁ ls =>
        rw [hcase] at hl
        rcases List.mem_cons.mp hl with rfl | hl
        · rcases List.mem_cons.mp hc with rfl | hc
          · exact List.mem_cons_self _ _
          · exact List.mem_cons_of_mem _
              (ih (hcase ▸ List.mem_cons_self _ _) hc)
        · exact List.mem_cons_of_mem _
            (ih (hcase ▸ List.mem_cons_of_mem _ hl) hc)

theorem linesRaw_decomp {t : List Char} {n : Nat} {line : List Char}
    (h : (linesRaw t)[n]? = some line) :
    ∃ pre suf, t = pre ++ line ++ suf ∧ countNL pre = n ∧
      utf8LenL pre = line_start_offset t n ∧ ∀ ch ∈ line, ch ≠ '\n' := by
  induction t generalizing n line with
  | nil =>
    cases n with
    | zero =>
      simp [linesRaw] at h
      subst h
      exact ⟨[], [], by simp, by simp [countNL], by
        simp [utf8LenL, line_start_offset], by simp⟩
    | succ m => simp [linesRaw] at h
  | cons c cs ih =>
    simp only [linesRaw] at h
    by_cases hc : c = '\n'
    · rw [if_pos hc] at h
      cases n with
      | zero =>
        simp at h
        subst h
        exact ⟨[], c :: cs, by simp, by simp [countNL], by
          simp [utf8LenL, line_start_offset], by simp⟩
      | succ m =>
        simp only [List.getElem?_cons_succ] at h
        obtain ⟨pre, suf, ht, hcnt, hlen, hnl⟩ := ih h
        refine ⟨c :: pre, suf, by simp [ht], ?_, ?_, hnl⟩
        · simp [countNL, List.countP_cons, hc] at hcnt ⊢
          omega
        · simp only [utf8LenL, line_start_offset, if_pos hc]
          omega
    · rw [if_neg hc] at h
      cases hcs : linesRaw cs with
      | nil => exact absurd hcs (linesRaw_ne_nil cs)
      | cons l₁ ls =>
        rw [hcs] at h
        cases n with
        | zero =>
          simp at h
          obtain ⟨pre, suf, ht, hcnt, hlen, hnl⟩ :=
            @ih 0 l₁ (by rw [hcs]; simp)
          have hpre : pre = [] := utf8LenL_eq_zero (by
            rw [hlen, line_start_offset_zero])
          subst hpre
          simp at ht
          refine ⟨[], suf, ?_, by simp [countNL], by
            simp [utf8LenL, line_start_offset], ?_⟩
          · rw [← h]; simp [ht]
          · intro ch hch
            rw [← h] at hch
            rcases List.mem_cons.mp hch with rfl | hch
            · exact hc
            · exact hnl ch hch
        | succ m =>
          simp only [List.getElem?_cons_succ] at h
          obtain ⟨pre, suf, ht, hcnt, hlen, hnl⟩ :=
            @ih (m + 1) line (by rw [hcs]; simpa using h)
          refine ⟨c :: pre, suf, by simp [ht], ?_, ?_, hnl⟩
          · simp [countNL, List.countP_cons, hc] at hcnt ⊢
            omega
          · simp only [utf8LenL, line_start_offset, if_neg hc]
            omega

theorem stripTrailCR_eq_self {l : List Char} (h : '\r' ∉ l) :
    stripTrailCR l = l := by
  unfold stripTrailCR
  rw [if_neg]
  intro hl
  exact h (List.mem_of_mem_getLast? hl)

theorem rustLines_eq_of_noCR {t : List Char} (h : '\r' ∉ t) :
    rustLines t = if (linesRaw t).getLast? = some [] then
      (linesRaw t).dropLast else linesRaw t := by
  have hmap : (linesRaw t).dropLast.map stripTrailCR = (linesRaw t).dropLast := by
    have hcg : ∀ l' ∈ (linesRaw t).dropLast, stripTrailCR l' = l' := by
      intro l' hl'
      exact stripTrailCR_eq_self
        (fun hr => h (linesRaw_mem_subset (List.dropLast_subset _ hl') hr))
    rw [List.map_congr_left hcg]
    simp
  unfold rustLines
  rw [hmap]
  cases hlast : (linesRaw t).getLast? with
  | none =>
    exfalso
    have := @List.getLast?_isSome _ (linesRaw t)
    rw [hlast] at this
    simp at this
    exact linesRaw_ne_nil t this
  | some l =>
    cases l with
    | nil => simp
    | cons x xs =>
      rw [if_neg (by simp)]
      show (linesRaw t).dropLast ++ [x :: xs] = linesRaw t
      have hne := linesRaw_ne_nil t
      have hg := List.getLast?_eq_getLast (linesRaw t) hne
      rw [hg] at hlast
      injection hlast with hlast
      rw [← hlast]
      exact List.dropLast_append_getLast hne

theorem rustLines_getElem_raw {t : List Char} (h : '\r' ∉ t) {n : Nat}
    {line : List Char} (hn : (rustLines t)[n]? = some line) :
    (linesRaw t)[n]? = some line := by
  rw [rustLines_eq_of_noCR h] at hn
  split at hn
  · rw [List.getElem?_dropLast] at hn
    split at hn
    · exact hn
    · exact absurd hn (by simp)
  · exact hn

theorem rustLines_take_raw {t : List Char} (h : '\r' ∉ t) {n : Nat}
    {line : List Char} (hn : (rustLines t)[n]? = some line) :
    (rustLines t).take n = (linesRaw t).take n := by
  rw [rustLines_eq_of_noCR h] at hn ⊢
  by_cases hc : (linesRaw t).getLast? = some []
  · rw [if_pos hc] at hn ⊢
    have hlt : n < (linesRaw t).length - 1 := by
      have := (List.getElem?_eq_some_iff.mp hn).1
      rwa [List.length_dropLast] at this
    rw [List.dropLast_eq_take, List.take_take]
    congr 1
    omega
  · rw [if_neg hc] at hn ⊢

theorem linesRaw_take_sum (t : List Char) (n : Nat)
    (h : n < (linesRaw t).length) :
    (((linesRaw t).take n).map (fun l => utf8LenL l + 1)).sum =
      line_start_offset t n := by
  induction t generalizing n with
  | nil =>
    have hn : n = 0 := by
      simp [linesRaw] at h
      omega
    subst hn
    simp [line_start_offset]
  | cons c cs ih =>
    by_cases hc : c = '\n'
    · simp only [linesRaw, if_pos hc] at h ⊢
      cases n with
      | zero => simp [line_start_offset]
      | succ m =>
        simp only [List.take_succ_cons, List.map_cons, List.sum_cons]
        rw [ih m (by simpa using h)]
        have hsz : ('\n' : Char).utf8Size = 1 := rfl
        subst hc
        simp only [line_start_offset, if_pos, utf8LenL, hsz]
        try simp
        try omega
    · simp only [linesRaw, if_neg hc] at h ⊢
      cases hcs : linesRaw cs with
      | nil => exact absurd hcs (linesRaw_ne_nil cs)
      | cons l₁ ls =>
        dsimp only at h ⊢
        cases n with
        | zero => simp [line_start_offset_zero]
        | succ m =>
          simp only [List.take_succ_cons, List.map_cons, List.sum_cons]
          have hih := ih (m + 1) (by
            have h' := h
            rw [hcs] at h'
            rw [hcs]
            simpa using h')
          rw [hcs] at hih
          simp only [List.take_succ_cons, List.map_cons, List.sum_cons] at hih
          simp only [line_start_offset, if_neg hc]
          rw [← hih]
          simp [utf8LenL]
          omega

theorem line_start_sum_eq {t : List Char} (h : '\r' ∉ t) {n : Nat}
    {line : List Char} (hn : (rustLines t)[n]? = some line) :
    line_start_sum t n = line_start_offset t n := by
  unfold line_start_sum
  rw [rustLines_take_raw h hn]
  exact linesRaw_take_sum t n
    (List.getElem?_eq_some_iff.mp (rustLines_getElem_raw h hn)).1

/-! ## Relating positions to line/offset decompositions -/

theorem otpAux_skip (pre rest : List Char) (offset l c cur : Nat)
    (h : cur + utf8LenL pre ≤ offset) :
    ∃ c', otpAux (pre ++ rest) offset l c cur =
      otpAux rest offset (l + countNL pre) c' (cur + utf8LenL pre) := by
  induction pre generalizing l c cur with
  | nil => exact ⟨c, by simp [countNL, utf8LenL]⟩
  | cons ch pre ih =>
    have hsz := Char.utf8Size_pos ch
    simp only [utf8LenL] at h
    have hnle : ¬ offset ≤ cur := by omega
    by_cases hn : ch = '\n'
    · obtain ⟨c', hc'⟩ := ih (l + 1) 0 (cur + ch.utf8Size) (by omega)
      refine ⟨c', ?_⟩
      rw [List.cons_append]
      simp only [otpAux, if_neg hnle, if_pos hn]
      rw [hc']
      have eA : l + countNL (ch :: pre) = l + 1 + countNL pre := by
        simp [countNL, List.countP_cons, hn]
        omega
      have eB : cur + utf8LenL (ch :: pre) = cur + ch.utf8Size + utf8LenL pre := by
        simp [utf8LenL]
        omega
      rw [eA, eB]
    · obtain ⟨c', hc'⟩ := ih l (c + 1) (cur + ch.utf8Size) (by omega)
      refine ⟨c', ?_⟩
      rw [List.cons_append]
      simp only [otpAux, if_neg hnle, if_neg hn]
      rw [hc']
      have eA : l + countNL (ch :: pre) = l + countNL pre := by
        simp [countNL, List.countP_cons, hn]
      have eB : cur + utf8LenL (ch :: pre) = cur + ch.utf8Size + utf8LenL pre := by
        simp [utf8LenL]
        omega
      rw [eA, eB]

theorem otpAux_line_of_nonl (line suf : List Char) (offset l c cur : Nat)
    (hnl : ∀ ch ∈ line, ch ≠ '\n') (h : offset ≤ cur + utf8LenL line) :
    (otpAux (line ++ suf) offset l c cur).line = l := by
  induction line generalizing c cur with
  | nil =>
    simp [utf8LenL] at h
    cases suf with
    | nil => simp [otpAux]
    | cons d ds => simp [otpAux, if_pos h]
  | cons ch cs ih =>
    simp only [List.cons_append, otpAux]
    by_cases h0 : offset ≤ cur
    · rw [if_pos h0]
    · rw [if_neg h0]
      have hch : ch ≠ '\n' := hnl ch (List.mem_cons_self _ _)
      rw [if_neg hch]
      apply ih
      · intro d hd
        exact hnl d (List.mem_cons_of_mem _ hd)
      · simp only [utf8LenL] at h
        omega

theorem position_line_of_inline {t : List Char} (hcr : '\r' ∉ t) {n : Nat}
    {line : List Char} (hn : (rustLines t)[n]? = some line) {k : Nat}
    (hk : k ≤ utf8LenL line) :
    (offset_to_position (line_start_offset t n + k) t).line = n := by
  obtain ⟨pre, suf, ht, hcnt, hlen, hnl⟩ :=
    linesRaw_decomp (rustLines_getElem_raw hcr hn)
  unfold offset_to_position
  have htarget : line_start_offset t n + k = utf8LenL pre + k := by rw [hlen]
  rw [htarget]
  conv_lhs => rw [ht]
  obtain ⟨c', hc'⟩ :=
    otpAux_skip pre (line ++ suf) (utf8LenL pre + k) 0 0 0 (by omega)
  rw [List.append_assoc]
  rw [hc']
  have hline := otpAux_line_of_nonl line suf (utf8LenL pre + k)
    (0 + countNL pre) c' (0 + utf8LenL pre) hnl (by omega)
  rw [hline]
  omega

/-! ## Matches decompose the input -/

theorem head?_mem_self {α : Type _} {l : List α} {a : α}
    (h : l.head? = some a) : a ∈ l := by
  cases l with
  | nil => simp at h
  | cons x xs =>
    simp at h
    subst h
    exact List.mem_cons_self _ _

theorem stripLit_suffix {ci : Bool} {s cs rem : List Char}
    (h : stripLit ci s cs = some rem) : ∃ m, cs = m ++ rem := by
  induction s generalizing cs with
  | nil =>
    simp [stripLit] at h
    subst h
    exact ⟨[], rfl⟩
  | cons p ps ih =>
    cases cs with
    | nil => simp [stripLit] at h
    | cons c cs' =>
      simp only [stripLit] at h
      split at h
      · obtain ⟨m, hm⟩ := ih h
        exact ⟨c :: m, by simp [hm]⟩
      · exact absurd h (by simp)

theorem starRems_suffix {p : Char → Bool} {cs rem : List Char}
    (h : rem ∈ starRems p cs) : ∃ m, cs = m ++ rem := by
  induction cs with
  | nil =>
    simp [starRems] at h
    subst h
    exact ⟨[], rfl⟩
  | cons c cs' ih =>
    simp only [starRems] at h
    split at h
    · rcases List.mem_append.mp h with h | h
      · obtain ⟨m, hm⟩ := ih h
        exact ⟨c :: m, by simp [hm]⟩
      · simp at h
        subst h
        exact ⟨[], rfl⟩
    · simp at h
      subst h
      exact ⟨[], rfl⟩

theorem reMatch_suffix {r : Re} {cs rem : List Char}
    (h : rem ∈ reMatch r cs) : ∃ m, cs = m ++ rem := by
  induction r generalizing cs rem with
  | lit ci s =>
    simp only [reMatch] at h
    cases hs : stripLit ci s cs with
    | none =>
      rw [hs] at h
      simp at h
    | some rem' =>
      rw [hs] at h
      simp at h
      subst h
      exact stripLit_suffix hs
  | cls p =>
    cases cs with
    | nil => simp [reMatch] at h
    | cons c cs' =>
      simp only [reMatch] at h
      split at h
      · simp at h
        subst h
        exact ⟨[c], rfl⟩
      · simp at h
  | star p => exact starRems_suffix h
  | alt r₁ r₂ ih₁ ih₂ =>
    simp only [reMatch] at h
    rcases List.mem_append.mp h with h | h
    · exact ih₁ h
    · exact ih₂ h
  | seq r₁ r₂ ih₁ ih₂ =>
    simp only [reMatch] at h
    rw [List.mem_flatMap] at h
    obtain ⟨mid, hmid, hrem⟩ := h
    obtain ⟨m₁, hm₁⟩ := ih₁ hmid
    obtain ⟨m₂, hm₂⟩ := ih₂ hrem
    exact ⟨m₁ ++ m₂, by simp [hm₁, hm₂]⟩

theorem reFindAux_decomp {r : Re} {cs : List Char} {pos s e : Nat}
    (h : reFindAux r cs pos = some (s, e)) :
    ∃ a m b, cs = a ++ m ++ b ∧ pos + utf8LenL a = s ∧ s + utf8LenL m = e := by
  induction cs generalizing pos with
  | nil =>
    simp only [reFindAux] at h
    cases hh : (reMatch r []).head? with
    | some rem =>
      rw [hh] at h
      simp at h
      obtain ⟨hs, he⟩ := h
      refine ⟨[], [], [], by simp, by simp [utf8LenL, hs], ?_⟩
      simp [utf8LenL] at he ⊢
      omega
    | none =>
      rw [hh] at h
      simp at h
  | cons c cs' ih =>
    simp only [reFindAux] at h
    cases hh : (reMatch r (c :: cs')).head? with
    | some rem =>
      rw [hh] at h
      simp at h
      obtain ⟨hs, he⟩ := h
      obtain ⟨m, hm⟩ := reMatch_suffix (head?_mem_self hh)
      refine ⟨[], m, rem, by simp [hm], by simp [utf8LenL, hs], ?_⟩
      rw [hm, utf8LenL_append] at he
      omega
    | none =>
      rw [hh] at h
      obtain ⟨a, m, b, hcs, hpos, hend⟩ := ih h
      refine ⟨c :: a, m, b, by simp [hcs], ?_, hend⟩
      simp [utf8LenL]
      omega

theorem reFind_decomp {r : Re} {line : List Char} {s e : Nat}
    (h : reFind r line = some (s, e)) :
    ∃ a m b, line = a ++ m ++ b ∧ utf8LenL a = s ∧ s + utf8LenL m = e := by
  obtain ⟨a, m, b, h1, h2, h3⟩ := reFindAux_decomp h
  exact ⟨a, m, b, h1, by omega, h3⟩

theorem reFind_bounds {r : Re} {line : List Char} {s e : Nat}
    (h : reFind r line = some (s, e)) : s ≤ e ∧ e ≤ utf8LenL line := by
  obtain ⟨a, m, b, h1, h2, h3⟩ := reFind_decomp h
  subst h1
  rw [utf8LenL_append, utf8LenL_append]
  omega

/-! ## Counting the credentials rule's diagnostics -/

theorem mk_cred_diag_start_line {t : List Char} (hcr : '\r' ∉ t) {m : Nat}
    {line : List Char} (hm : (rustLines t)[m]? = some line) {r : Re}
    {s e : Nat} (hf : reFind r line = some (s, e)) (msg : String) :
    (mk_cred_diag msg t m s e).range.start.line = m := by
  have hb := reFind_bounds hf
  show (offset_to_position (line_start_sum t m + s) t).line = m
  rw [line_start_sum_eq hcr hm]
  exact position_line_of_inline hcr hm (by omega)

theorem credLines_mem {r : Re} {msg : String} {t : List Char} {k : Nat}
    {ls : List (List Char)} {d : Diagnostic}
    (h : d ∈ credLines r msg t k ls) :
    ∃ m line s e, ls[m]? = some line ∧ reFind r line = some (s, e) ∧
      d = mk_cred_diag msg t (k + m) s e := by
  induction ls generalizing k with
  | nil => simp [credLines] at h
  | cons line rest ih =>
    simp only [credLines] at h
    rcases List.mem_append.mp h with h | h
    · cases hf : reFind r line with
      | none =>
        rw [hf] at h
        simp at h
      | some se =>
        obtain ⟨s0, e0⟩ := se
        rw [hf] at h
        simp at h
        exact ⟨0, line, s0, e0, by simp, hf, by simp [h]⟩
    · obtain ⟨m, line', s, e, h1, h2, h3⟩ := ih h
      refine ⟨m + 1, line', s, e, by simpa using h1, h2, ?_⟩
      rw [h3]
      congr 1
      omega

theorem credLines_message {r : Re} {msg : String} {t : List Char} {k : Nat}
    {ls : List (List Char)} {d : Diagnostic}
    (h : d ∈ credLines r msg t k ls) : d.message = msg := by
  obtain ⟨m, line, s, e, _, _, h3⟩ := credLines_mem h
  rw [h3]
  rfl

theorem credLines_countP_ne {r : Re} {msg : String} {t : List Char} {k : Nat}
    {ls : List (List Char)} {msg' : String} (hne : msg' ≠ msg) (n : Nat) :
    (credLines r msg t k ls).countP
      (fun d => d.message == msg' && d.range.start.line == n) = 0 := by
  rw [List.countP_eq_zero]
  intro d hd
  have hm := credLines_message hd
  simp only [Bool.and_eq_true, beq_iff_eq, hm]
  intro hc
  exact hne hc.1.symm

theorem credLines_countP_off {r : Re} {msg : String} {t : List Char}
    (hcr : '\r' ∉ t) {k : Nat} {ls : List (List Char)} {n : Nat}
    (hwin : ∀ m, m < ls.length → k + m ≠ n)
    (htr : ∀ m line, ls[m]? = some line → (rustLines t)[k + m]? = some line) :
    (credLines r msg t k ls).countP
      (fun d => d.message == msg && d.range.start.line == n) = 0 := by
  rw [List.countP_eq_zero]
  intro d hd
  obtain ⟨m, line, s, e, h1, h2, h3⟩ := credLines_mem hd
  have hlt : m < ls.length := (List.getElem?_eq_some_iff.mp h1).1
  have hline := mk_cred_diag_start_line hcr (htr m line h1) h2 msg
  subst h3
  simp only [Bool.and_eq_true, beq_iff_eq, hline]
  intro hc
  exact hwin m hlt hc.2

theorem credLines_append (r : Re) (msg : String) (t : List Char) (k : Nat)
    (l₁ l₂ : List (List Char)) :
    credLines r msg t k (l₁ ++ l₂) =
      credLines r msg t k l₁ ++ credLines r msg t (k + l₁.length) l₂ := by
  induction l₁ generalizing k with
  | nil => simp [credLines]
  | cons x xs ih =>
    simp only [List.cons_append, credLines, List.append_eq]
    rw [ih (k + 1), List.append_assoc]
    rw [show k + 1 + xs.length = k + (x :: xs).length from by simp; omega]

theorem credPerPattern_countP_one {r : Re} {msg : String} {t : List Char}
    (hcr : '\r' ∉ t) {n : Nat} {line : List Char}
    (hn : (rustLines t)[n]? = some line) {s e : Nat}
    (hf : reFind r line = some (s, e)) :
    (credPerPattern r msg t).countP
      (fun d => d.message == msg && d.range.start.line == n) = 1 := by
  unfold credPerPattern
  have hlen : n < (rustLines t).length := (List.getElem?_eq_some_iff.mp hn).1
  have hsplit : rustLines t =
      (rustLines t).take n ++ line :: (rustLines t).drop (n + 1) := by
    conv_lhs => rw [← List.take_append_drop n (rustLines t)]
    congr 1
    rw [List.drop_eq_getElem_cons hlen]
    congr 1
    exact (List.getElem?_eq_some_iff.mp hn).2
  have hlen_take : ((rustLines t).take n).length = n := by
    rw [List.length_take]
    omega
  conv_lhs => rw [hsplit]
  rw [credLines_append, List.countP_append]
  have hc1 : (credLines r msg t 0 ((rustLines t).take n)).countP
      (fun d => d.message == msg && d.range.start.line == n) = 0 := by
    apply credLines_countP_off hcr
    · intro m hm
      rw [hlen_take] at hm
      omega
    · intro m line' h1
      rw [List.getElem?_take] at h1
      split at h1
      · simpa using h1
      · exact absurd h1 (by simp)
  rw [hc1, hlen_take]
  simp only [Nat.zero_add, credLines]
  rw [hf]
  rw [List.countP_append]
  have hc2 : (credLines r msg t (n + 1) ((rustLines t).drop (n + 1))).countP
      (fun d => d.message == msg && d.range.start.line == n) = 0 := by
    apply credLines_countP_off hcr
    · intro m _
      omega
    · intro m line' h1
      rw [List.getElem?_drop] at h1
      exact h1
  rw [hc2]
  have hq : (mk_cred_diag msg t n s e).range.start.line = n :=
    mk_cred_diag_start_line hcr hn hf msg
  have hqd : (fun d => d.message == msg && d.range.start.line == n)
      (mk_cred_diag msg t n s e) = true := by
    simp only [Bool.and_eq_true, beq_iff_eq]
    exact ⟨rfl, hq⟩
  simp [List.countP_cons, hqd]

theorem credPerPattern_mem_eq {r : Re} {msg : String} {t : List Char}
    (hcr : '\r' ∉ t) {n : Nat} {line : List Char}
    (hn : (rustLines t)[n]? = some line) {s e : Nat}
    (hf : reFind r line = some (s, e)) {d : Diagnostic}
    (hd : d ∈ credPerPattern r msg t) (hline : d.range.start.line = n) :
    d = mk_cred_diag msg t n s e := by
  obtain ⟨m, line', s', e', h1, h2, h3⟩ := credLines_mem hd
  rw [show (0 : Nat) + m = m from by omega] at h3
  have hlm := mk_cred_diag_start_line hcr h1 h2 msg
  rw [h3] at hline
  rw [hlm] at hline
  subst hline
  rw [hn] at h1
  injection h1 with h1
  subst h1
  rw [hf] at h2
  injection h2 with h2
  rw [h3]
  rw [Prod.mk.injEq] at h2
  rw [h2.1, h2.2]

/-! ## Claim C1 -/

theorem check_eq_parts (t : List Char) :
    NoHardcodedCredentialsRule.check t =
      credPerPattern credRe1 credMsg1 t ++ (credPerPattern credRe2 credMsg2 t ++
        (credPerPattern credRe3 credMsg3 t ++ (credPerPattern credRe4 credMsg4 t ++
          (credPerPattern credRe5 credMsg5 t ++ [])))) := rfl

theorem credPerPattern_countP_ne {r : Re} {msg : String} {t : List Char}
    {msg' : String} (hne : msg' ≠ msg) (n : Nat) :
    (credPerPattern r msg t).countP
      (fun d => d.message == msg' && d.range.start.line == n) = 0 :=
  credLines_countP_ne hne n

theorem credPerPattern_message {r : Re} {msg : String} {t : List Char}
    {d : Diagnostic} (h : d ∈ credPerPattern r msg t) : d.message = msg :=
  credLines_message h

theorem cred_diag_props {t : List Char} (hcr : '\r' ∉ t) {r : Re}
    {msg : String} {n : Nat} {line : List Char}
    (hn : (rustLines t)[n]? = some line) {s e : Nat}
    (hf : reFind r line = some (s, e)) {d : Diagnostic}
    (hd : d ∈ credPerPattern r msg t) (hlinee : d.range.start.line = n) :
    d.severity = "error" ∧ d.code = some "CREDENTIALS" ∧
    d.range.start = offset_to_position (line_start_offset t n + s) t ∧
    d.range.endPos = offset_to_position (line_start_offset t n + e) t ∧
    ∃ pre mid suf, t = pre ++ mid ++ suf ∧
      utf8LenL pre = line_start_offset t n + s ∧ utf8LenL mid = e - s := by
  have hde := credPerPattern_mem_eq hcr hn hf hd hlinee
  subst hde
  refine ⟨rfl, rfl, ?_, ?_, ?_⟩
  · show offset_to_position (line_start_sum t n + s) t = _
    rw [line_start_sum_eq hcr hn]
  · show offset_to_position (line_start_sum t n + e) t = _
    rw [line_start_sum_eq hcr hn]
  · obtain ⟨pre0, suf0, ht, hcnt, hlen0, hnl⟩ :=
      linesRaw_decomp (rustLines_getElem_raw hcr hn)
    obtain ⟨a, m, b, hlm, ha, hme⟩ := reFind_decomp hf
    refine ⟨pre0 ++ a, m, b ++ suf0, ?_, ?_, by omega⟩
    · rw [ht, hlm]
      simp [List.append_assoc]
    · rw [utf8LenL_append, hlen0, ha]

/-- Claim C1 (amended to source texts without carriage returns): for every
such text and every credential pattern, the rule scans every line; on the
first match of the pattern in a line it emits exactly one diagnostic (per
pattern and line) with severity `error`, code `CREDENTIALS`, and a range
covering exactly the matched byte span of that line within the original
text: the range's endpoints are the positions of the true byte offsets of
the match, and the text decomposes at those offsets around the matched
substring. -/
theorem cred_first_match_per_line
    (t : List Char) (hcr : '\r' ∉ t) (r : Re) (msg : String)
    (hpm : (r, msg) ∈ credCompiled) (n : Nat) (line : List Char)
    (hline : (rustLines t)[n]? = some line) (s e : Nat)
    (hfind : reFind r line = some (s, e)) :
    ((NoHardcodedCredentialsRule.check t).countP
        (fun d => d.message == msg && d.range.start.line == n) = 1) ∧
    ∀ d ∈ NoHardcodedCredentialsRule.check t, d.message = msg →
      d.range.start.line = n →
      d.severity = "error" ∧ d.code = some "CREDENTIALS" ∧
      d.range.start = offset_to_position (line_start_offset t n + s) t ∧
      d.range.endPos = offset_to_position (line_start_offset t n + e) t ∧
      ∃ pre mid suf, t = pre ++ mid ++ suf ∧
        utf8LenL pre = line_start_offset t n + s ∧
        utf8LenL mid = e - s := by
  simp only [credCompiled, List.mem_cons, Prod.mk.injEq, List.not_mem_nil,
    or_false] at hpm
  rcases hpm with ⟨rfl, rfl⟩ | ⟨rfl, rfl⟩ | ⟨rfl, rfl⟩ | ⟨rfl, rfl⟩ | ⟨rfl, rfl⟩
  all_goals constructor
  case _ =>
    rw [check_eq_parts]
    simp only [List.countP_append, List.countP_nil]
    rw [credPerPattern_countP_one hcr hline hfind,
      credPerPattern_countP_ne (show credMsg1 ≠ credMsg2 by decide) n,
      credPerPattern_countP_ne (show credMsg1 ≠ credMsg3 by decide) n,
      credPerPattern_countP_ne (show credMsg1 ≠ credMsg4 by decide) n,
      credPerPattern_countP_ne (show credMsg1 ≠ credMsg5 by decide) n]
  case _ =>
    intro d hd hmsg hlinee
    rw [check_eq_parts] at hd
    simp only [List.mem_append, List.not_mem_nil, or_false] at hd
    rcases hd with hd | hd | hd | hd | hd
    · exact cred_diag_props hcr hline hfind hd hlinee
    · exact absurd (credPerPattern_message hd ▸ hmsg) (by decide)
    · exact absurd (credPerPattern_message hd ▸ hmsg) (by decide)
    · exact absurd (credPerPattern_message hd ▸ hmsg) (by decide)
    · exact absurd (credPerPattern_message hd ▸ hmsg) (by decide)
  case _ =>
    rw [check_eq_parts]
    simp only [List.countP_append, List.countP_nil]
    rw [credPerPattern_countP_one hcr hline hfind,
      credPerPattern_countP_ne (show credMsg2 ≠ credMsg1 by decide) n,
      credPerPattern_countP_ne (show credMsg2 ≠ credMsg3 by decide) n,
      credPerPattern_countP_ne (show credMsg2 ≠ credMsg4 by decide) n,
      credPerPattern_countP_ne (show credMsg2 ≠ credMsg5 by decide) n]
  case _ =>
    intro d hd hmsg hlinee
    rw [check_eq_parts] at hd
    simp only [List.mem_append, List.not_mem_nil, or_false] at hd
    rcases hd with hd | hd | hd | hd | hd
    · exact absurd (credPerPattern_message hd ▸ hmsg) (by decide)
    · exact cred_diag_props hcr hline hfind hd hlinee
    · exact absurd (credPerPattern_message hd ▸ hmsg) (by decide)
    · exact absurd (credPerPattern_message hd ▸ hmsg) (by decide)
    · exact absurd (credPerPattern_message hd ▸ hmsg) (by decide)
  case _ =>
    rw [check_eq_parts]
    simp only [List.countP_append, List.countP_nil]
    rw [credPerPattern_countP_one hcr hline hfind,
      credPerPattern_countP_ne (show credMsg3 ≠ credMsg1 by decide) n,
      credPerPattern_countP_ne (show credMsg3 ≠ credMsg2 by decide) n,
      credPerPattern_countP_ne (show credMsg3 ≠ credMsg4 by decide) n,
      credPerPattern_countP_ne (show credMsg3 ≠ credMsg5 by decide) n]
  case _ =>
    intro d hd hmsg hlinee
    rw [check_eq_parts] at hd
    simp only [List.mem_append, List.not_mem_nil, or_false] at hd
    rcases hd with hd | hd | hd | hd | hd
    · exact absurd (credPerPattern_message hd ▸ hmsg) (by decide)
    · exact absurd (credPerPattern_message hd ▸ hmsg) (by decide)
    · exact cred_diag_props hcr hline hfind hd hlinee
    · exact absurd (credPerPattern_message hd ▸ hmsg) (by decide)
    · exact absurd (credPerPattern_message hd ▸ hmsg) (by decide)
  case _ =>
    rw [check_eq_parts]
    simp only [List.countP_append, List.countP_nil]
    rw [credPerPattern_countP_one hcr hline hfind,
      credPerPattern_countP_ne (show credMsg4 ≠ credMsg1 by decide) n,
      credPerPattern_countP_ne (show credMsg4 ≠ credMsg2 by decide) n,
      credPerPattern_countP_ne (show credMsg4 ≠ credMsg3 by decide) n,
      credPerPattern_countP_ne (show credMsg4 ≠ credMsg5 by decide) n]
  case _ =>
    intro d hd hmsg hlinee
    rw [check_eq_parts] at hd
    simp only [List.mem_append, List.not_mem_nil, or_false] at hd
    rcases hd with hd | hd | hd | hd | hd
    · exact absurd (credPerPattern_message hd ▸ hmsg) (by decide)
    · exact absurd (credPerPattern_message hd ▸ hmsg) (by decide)
    · exact absurd (credPerPattern_message hd ▸ hmsg) (by decide)
    · exact cred_diag_props hcr hline hfind hd hlinee
    · exact absurd (credPerPattern_message hd ▸ hmsg) (by decide)
  case _ =>
    rw [check_eq_parts]
    simp only [List.countP_append, List.countP_nil]
    rw [credPerPattern_countP_one hcr hline hfind,
      credPerPattern_countP_ne (show credMsg5 ≠ credMsg1 by decide) n,
      credPerPattern_countP_ne (show credMsg5 ≠ credMsg2 by decide) n,
      credPerPattern_countP_ne (show credMsg5 ≠ credMsg3 by decide) n,
      credPerPattern_countP_ne (show credMsg5 ≠ credMsg4 by decide) n]
  case _ =>
    intro d hd hmsg hlinee
    rw [check_eq_parts] at hd
    simp only [List.mem_append, List.not_mem_nil, or_false] at hd
    rcases hd with hd | hd | hd | hd | hd
    · exact absurd (credPerPattern_message hd ▸ hmsg) (by decide)
    · exact absurd (credPerPattern_message hd ▸ hmsg) (by decide)
    · exact absurd (credPerPattern_message hd ▸ hmsg) (by decide)
    · exact absurd (credPerPattern_message hd ▸ hmsg) (by decide)
    · exact cred_diag_props hcr hline hfind hd hlinee

/-! ## Claims C3 and C4: the deprecated-interpolation rule -/

theorem length_filterMap_ite {α β : Type _} (l : List α) (p : α → Bool)
    (f : α → β) :
    (l.filterMap (fun x => if p x then none else some (f x))).length =
      (l.filter (fun x => !p x)).length := by
  induction l with
  | nil => rfl
  | cons x xs ih =>
    by_cases hp : p x
    · simp [List.filterMap_cons, List.filter_cons, hp, ih]
    · simp [List.filterMap_cons, List.filter_cons, hp, ih]

theorem depLineDiags_length (t : List Char) (n : Nat) (line : List Char) :
    (depLineDiags t n line).length =
      ((reFindIter depRe line).filter
        (fun se => !complexInterpolation (byteSlice line se.1 se.2))).length := by
  unfold depLineDiags
  exact length_filterMap_ite _ _ _

theorem depLines_length (t : List Char) (k : Nat) (ls : List (List Char)) :
    (depLines t k ls).length = (ls.map (fun line =>
      ((reFindIter depRe line).filter
        (fun se => !complexInterpolation (byteSlice line se.1 se.2))).length)).sum := by
  induction ls generalizing k with
  | nil => rfl
  | cons line rest ih =>
    simp [depLines, List.length_append, depLineDiags_length, ih (k + 1)]

theorem depLines_mem_props {t : List Char} {k : Nat} {ls : List (List Char)}
    {d : Diagnostic} (h : d ∈ depLines t k ls) :
    d.severity = "warn" ∧ d.code = some "DEPRECATED_INTERPOLATION" ∧
    d.rule_id = "no-deprecated-interpolation" := by
  induction ls generalizing k with
  | nil => simp [depLines] at h
  | cons line rest ih =>
    simp only [depLines] at h
    rcases List.mem_append.mp h with h | h
    · unfold depLineDiags at h
      rw [List.mem_filterMap] at h
      obtain ⟨se, _, hse⟩ := h
      split at hse
      · exact absurd hse (by simp)
      · injection hse with hse
        subst hse
        exact ⟨rfl, rfl, rfl⟩
    · exact ih h

theorem depLineDiags_eq_nil_iff (t : List Char) (k : Nat) (line : List Char) :
    depLineDiags t k line = [] ↔ ∀ se ∈ reFindIter depRe line,
      complexInterpolation (byteSlice line se.1 se.2) = true := by
  unfold depLineDiags
  rw [List.filterMap_eq_nil_iff]
  constructor
  · intro h se hse
    have h' := h se hse
    by_contra hc
    rw [if_neg hc] at h'
    exact absurd h' (by simp)
  · intro h se hse
    rw [if_pos (h se hse)]

theorem depLines_eq_nil_iff (t : List Char) (k : Nat) (ls : List (List Char)) :
    depLines t k ls = [] ↔ ∀ line ∈ ls, ∀ se ∈ reFindIter depRe line,
      complexInterpolation (byteSlice line se.1 se.2) = true := by
  induction ls generalizing k with
  | nil => simp [depLines]
  | cons line rest ih =>
    simp only [depLines]
    rw [List.append_eq_nil, depLineDiags_eq_nil_iff, ih (k + 1),
      List.forall_mem_cons]

/-- Claim C3: the Deprecated-Interpolation rule reports, for every line of
the input, one `warn` diagnostic with code `DEPRECATED_INTERPOLATION` for
every (not only the first) match of the quoted-interpolation pattern that is
not suppressed as complex; in particular `value = "${var.name}"` yields
exactly one such diagnostic and `value = "${var.name + 1}"` yields none. -/
theorem dep_all_matches_per_line :
    (∀ t n line, (rustLines t)[n]? = some line →
      (depLineDiags t n line).length =
        ((reFindIter depRe line).filter
          (fun se => !complexInterpolation (byteSlice line se.1 se.2))).length) ∧
    (∀ t, (NoDeprecatedInterpolationRule.check t).length =
      ((rustLines t).map (fun line =>
        ((reFindIter depRe line).filter
          (fun se => !complexInterpolation (byteSlice line se.1 se.2))).length)).sum) ∧
    (∀ t, ∀ d ∈ NoDeprecatedInterpolationRule.check t,
      d.severity = "warn" ∧ d.code = some "DEPRECATED_INTERPOLATION") ∧
    NoDeprecatedInterpolationRule.check "value = \"$\x7bvar.name\x7d\"".toList =
      [mk_dep_diag "value = \"$\x7bvar.name\x7d\"".toList 0 8 21] ∧
    NoDeprecatedInterpolationRule.check
      "value = \"$\x7bvar.name + 1\x7d\"".toList = [] := by
  refine ⟨?_, ?_, ?_, by decide, by decide⟩
  · intro t n line _
    exact depLineDiags_length t n line
  · intro t
    exact depLines_length t 0 (rustLines t)
  · intro t d hd
    have h := depLines_mem_props hd
    exact ⟨h.1, h.2.1⟩

theorem dep_all_matches_per_line_witness :
    (depLineDiags "value = \"$\x7bvar.name\x7d\"".toList 0
        "value = \"$\x7bvar.name\x7d\"".toList).length =
      ((reFindIter depRe "value = \"$\x7bvar.name\x7d\"".toList).filter
        (fun se => !complexInterpolation
          (byteSlice "value = \"$\x7bvar.name\x7d\"".toList se.1 se.2))).length :=
  dep_all_matches_per_line.1 "value = \"$\x7bvar.name\x7d\"".toList 0
    "value = \"$\x7bvar.name\x7d\"".toList (by decide)

/-- Claim C4: the suppression test is evaluated on the whole matched
quoted-string span, surrounding quotes and literal text included: a match is
suppressed exactly when that substring contains a space, `+`, `*`, `/` or
`(`; consequently `x = "hello ${var.name}"`, whose interpolation is a bare
variable reference but whose literal part contains a space, produces no
diagnostic even though the pattern matches. -/
theorem dep_suppression_whole_match :
    (∀ m, complexInterpolation m = true ↔
      (' ' ∈ m ∨ '+' ∈ m ∨ '*' ∈ m ∨ '/' ∈ m ∨ '\x28' ∈ m)) ∧
    (∀ t, NoDeprecatedInterpolationRule.check t = [] ↔
      ∀ line ∈ rustLines t, ∀ se ∈ reFindIter depRe line,
        complexInterpolation (byteSlice line se.1 se.2) = true) ∧
    reFindIter depRe "x = \"hello $\x7bvar.name\x7d\"".toList = [(4, 23)] ∧
    byteSlice "x = \"hello $\x7bvar.name\x7d\"".toList 4 23 =
      "\"hello $\x7bvar.name\x7d\"".toList ∧
    complexInterpolation
      (byteSlice "x = \"hello $\x7bvar.name\x7d\"".toList 4 23) = true ∧
    NoDeprecatedInterpolationRule.check
      "x = \"hello $\x7bvar.name\x7d\"".toList = [] := by
  refine ⟨?_, ?_, by decide, by decide, by decide, by decide⟩
  · intro m
    simp only [complexInterpolation, Bool.or_eq_true, List.elem_iff,
      List.contains]
    tauto
  · intro t
    exact depLines_eq_nil_iff t 0 (rustLines t)

theorem dep_suppression_whole_match_witness :
    NoDeprecatedInterpolationRule.check
      "y = \"$\x7bvar.a + var.b\x7d\"".toList = [] :=
  (dep_suppression_whole_match.2.1 "y = \"$\x7bvar.a + var.b\x7d\"".toList).mpr
    (by decide)

theorem cred_first_match_per_line_witness :
    (NoHardcodedCredentialsRule.check
        "password = \"sup3rSecret!\"".toList).countP
      (fun d => d.message == credMsg1 && d.range.start.line == 0) = 1 :=
  (cred_first_match_per_line "password = \"sup3rSecret!\"".toList (by decide)
    credRe1 credMsg1 (List.mem_cons_self _ _) 0
    "password = \"sup3rSecret!\"".toList (by decide) 0 25 (by decide)).1

/-- Claim C1 counterexample: on the CRLF text `"a\r\npwd = \"x\""`, the
password pattern's first match spans bytes `[0, 9)` of line 1, whose true
start offset in the original text is byte 3 (position `⟨1, 0⟩`); but the rule
computes the line start as `len + 1` over the CR-stripped lines, so the one
emitted diagnostic starts at position `⟨0, 2⟩` — the range does not cover the
matched substring of that line in the original text. -/
theorem cred_range_counterexample :
    ((NoHardcodedCredentialsRule.check "a\r\npwd = \"x\"".toList).map
        (fun d => d.range.start) = [⟨0, 2⟩]) ∧
    (rustLines "a\r\npwd = \"x\"".toList)[1]? = some "pwd = \"x\"".toList ∧
    reFind credRe1 "pwd = \"x\"".toList = some (0, 9) ∧
    line_start_offset "a\r\npwd = \"x\"".toList 1 = 3 ∧
    offset_to_position (line_start_offset "a\r\npwd = \"x\"".toList 1 + 0)
      "a\r\npwd = \"x\"".toList = ⟨1, 0⟩ ∧
    (⟨0, 2⟩ : Position) ≠ (⟨1, 0⟩ : Position) := by decide

/-! ## Claim C10 -/

/-- Claim C10: the credential patterns match substrings without word
boundaries: `monkey = "abcdefgh"` (whose key merely ends in `key`) triggers
the secret/token/key pattern and yields one `error` diagnostic with message
"Hardcoded secret/token/key detected", and `access_key = "ABCDEFGH12345678"`
triggers both the secret/token/key pattern and the access-key pattern,
yielding two diagnostics for that single line. -/
theorem cred_substring_matching :
    ((NoHardcodedCredentialsRule.check "monkey = \"abcdefgh\"".toList).map
        (fun d => (d.message, d.severity)) =
      [("Hardcoded secret/token/key detected", "error")]) ∧
    ((NoHardcodedCredentialsRule.check
        "access_key = \"ABCDEFGH12345678\"".toList).map
        (fun d => (d.message, d.severity)) =
      [("Hardcoded secret/token/key detected", "error"),
       ("Hardcoded access key detected", "error")]) := by decide

/-! ## Claim C2 -/

/-- Claim C2: on any text on which the structural parser fails (returns no
document), every structural rule's check returns normally with zero
diagnostics through the shared `HclRule.check` skeleton, and the whole
ruleset's output is exactly the two text-pattern rules' diagnostics (which
may still be nonempty); no rule propagates a failure. -/
theorem structural_parse_failure_skips
    (parse_hcl : List Char → Option Body) (t : List Char)
    (h : parse_hcl t = none) :
    (∀ check_hcl, HclRule.check parse_hcl check_hcl t = []) ∧
    runRuleset parse_hcl t =
      NoHardcodedCredentialsRule.check t ++
        NoDeprecatedInterpolationRule.check t := by
  have hz : ∀ check_hcl : Body → List Char → List Diagnostic,
      HclRule.check parse_hcl check_hcl t = [] := by
    intro ch
    unfold HclRule.check
    rw [h]
  refine ⟨hz, ?_⟩
  unfold runRuleset
  rw [hz, hz, hz, hz]
  simp

theorem structural_parse_failure_skips_witness :
    runRuleset (fun _ => none)
        "resource \"x\" \x7b password = \"hunter22\"".toList =
      NoHardcodedCredentialsRule.check
          "resource \"x\" \x7b password = \"hunter22\"".toList ++
        NoDeprecatedInterpolationRule.check
          "resource \"x\" \x7b password = \"hunter22\"".toList :=
  (structural_parse_failure_skips (fun _ => none)
    "resource \"x\" \x7b password = \"hunter22\"".toList rfl).2

/-! ## Claim C9 -/

/-- Claim C9: every rule's check is a total function of the input text (in
this embedding each check is a Lean function returning a diagnostic list for
every input), and pattern-compilation failure is isolated at the pattern
grain: for any outcome of `Regex::new` on the built-in pattern strings, the
credentials rule's output is exactly the concatenation of the per-pattern
outputs of the successfully compiled patterns — a failed pattern is skipped
and the remaining patterns are unaffected.  The shipped rule is the instance
where all five patterns compile. -/
theorem pattern_failure_isolation :
    (∀ (regex_new : String → Option Re) (t : List Char),
      NoHardcodedCredentialsRule.checkGen regex_new t =
        (credPatternStrings.filterMap (fun pm =>
          (regex_new pm.1).map (fun r => (r, pm.2)))).flatMap
          (fun rm => credPerPattern rm.1 rm.2 t)) ∧
    (∀ t : List Char, NoHardcodedCredentialsRule.check t =
      NoHardcodedCredentialsRule.checkGen regexNew t) := by
  refine ⟨?_, fun _ => rfl⟩
  intro regex_new t
  unfold NoHardcodedCredentialsRule.checkGen
  suffices h : ∀ l : List (String × String),
      (l.flatMap (fun pm => match regex_new pm.1 with
        | some r => credPerPattern r pm.2 t
        | none => [])) =
      (l.filterMap (fun pm => (regex_new pm.1).map (fun r => (r, pm.2)))).flatMap
        (fun rm => credPerPattern rm.1 rm.2 t) from h credPatternStrings
  intro l
  induction l with
  | nil => rfl
  | cons pm rest ih =>
    rw [List.flatMap_cons, List.filterMap_cons]
    cases hc : regex_new pm.1 with
    | none => simpa using ih
    | some r => simp [List.flatMap_cons, ih]

/-! ## Claims C5-C7: structural rules -/

theorem length_filterMap_eq_countP {α β : Type _} (l : List α)
    (f : α → Option β) :
    (l.filterMap f).length = l.countP (fun x => (f x).isSome) := by
  induction l with
  | nil => rfl
  | cons x xs ih =>
    cases hf : f x with
    | none => simp [List.filterMap_cons, hf, List.countP_cons, ih]
    | some b => simp [List.filterMap_cons, hf, List.countP_cons, ih]

theorem findSub_decomp {t pat : List Char} {p : Nat}
    (h : findSub t pat = some p) :
    ∃ pre suf, t = pre ++ pat ++ suf ∧ utf8LenL pre = p := by
  induction t generalizing p with
  | nil =>
    unfold findSub at h
    split at h
    · rename_i hp
      rw [List.isPrefixOf_iff_prefix] at hp
      obtain ⟨suf, hsuf⟩ := hp
      injection h with h
      exact ⟨[], suf, by simp [← hsuf], by simp [utf8LenL, ← h]⟩
    · exact absurd h (by simp)
  | cons c cs ih =>
    unfold findSub at h
    split at h
    · rename_i hp
      rw [List.isPrefixOf_iff_prefix] at hp
      obtain ⟨suf, hsuf⟩ := hp
      injection h with h
      exact ⟨[], suf, by simp [← hsuf], by simp [utf8LenL, ← h]⟩
    · dsimp only at h
      cases hf : findSub cs pat with
      | none =>
        rw [hf] at h
        simp at h
      | some q =>
        rw [hf] at h
        simp at h
        obtain ⟨pre, suf, ht, hlen⟩ := ih hf
        refine ⟨c :: pre, suf, by simp [ht], ?_⟩
        simp [utf8LenL, hlen]
        omega

theorem findSub_min {t pat : List Char} {p : Nat}
    (h : findSub t pat = some p) {pre' suf' : List Char}
    (hd : t = pre' ++ pat ++ suf') : p ≤ utf8LenL pre' := by
  induction t generalizing p pre' with
  | nil =>
    unfold findSub at h
    split at h
    · injection h with h
      rw [← h]
      exact Nat.zero_le _
    · exact absurd h (by simp)
  | cons c cs ih =>
    unfold findSub at h
    split at h
    · injection h with h
      rw [← h]
      exact Nat.zero_le _
    · rename_i hp
      dsimp only at h
      cases pre' with
      | nil =>
        exfalso
        apply hp
        rw [List.isPrefixOf_iff_prefix]
        exact ⟨suf', by simpa using hd.symm⟩
      | cons c' pre'' =>
        cases hf : findSub cs pat with
        | none =>
          rw [hf] at h
          simp at h
        | some q =>
          rw [hf] at h
          simp at h
          have hd' : c = c' ∧ cs = pre'' ++ pat ++ suf' := by
            have h2 := hd
            simp only [List.cons_append, List.cons.injEq] at h2
            exact h2
          have hq := ih hf hd'.2
          simp only [utf8LenL]
          rw [← hd'.1]
          omega

theorem naming_check_length (body : Body) (text : List Char) :
    (ResourceNamingConventionRule.check_hcl body text).length =
      body.blocks.countP naming_violation := by
  unfold ResourceNamingConventionRule.check_hcl
  rw [length_filterMap_eq_countP]
  apply List.countP_congr
  intro b _
  unfold naming_violation
  by_cases hid : (b.identifier == "resource" || b.identifier == "data" ||
      b.identifier == "variable" || b.identifier == "output" ||
      b.identifier == "locals") = true
  · rw [if_pos hid]
    cases hn : get_block_name b b.identifier with
    | none => simp [hid, hn]
    | some name =>
      by_cases hv : valid_name_is_match name
      · simp [hid, hn, hv]
      · simp [hid, hn, hv]
  · rw [if_neg hid]
    simp [hid]

theorem naming_check_mem (body : Body) (text : List Char) {d : Diagnostic}
    (hd : d ∈ ResourceNamingConventionRule.check_hcl body text) :
    d.severity = "warn" ∧ d.code = some "NAMING_CONVENTION" := by
  unfold ResourceNamingConventionRule.check_hcl at hd
  rw [List.mem_filterMap] at hd
  obtain ⟨b, _, hb⟩ := hd
  split at hb
  · split at hb
    · split at hb
      · injection hb with hb
        subst hb
        exact ⟨rfl, rfl⟩
      · exact absurd hb (by simp)
    · exact absurd hb (by simp)
  · exact absurd hb (by simp)

/-- Claim C5: for every successfully parsed document, the Naming-Convention
rule extracts each checked block's name from the second label for
`resource`/`data` and the first label for `variable`/`output`/`locals`, and
emits one `warn` diagnostic with code `NAMING_CONVENTION` exactly for the
blocks whose name exists and does not fully match `^[a-z][a-z0-9_]*$`; the
example document with resource blocks `BadName` and `good_name` yields
exactly the one diagnostic for `BadName`. -/
theorem naming_convention_spec :
    (∀ body text, ∀ d ∈ ResourceNamingConventionRule.check_hcl body text,
      d.severity = "warn" ∧ d.code = some "NAMING_CONVENTION") ∧
    (∀ body text, (ResourceNamingConventionRule.check_hcl body text).length =
      body.blocks.countP naming_violation) ∧
    (∀ block : Block,
      block.identifier = "resource" ∨ block.identifier = "data" →
      get_block_name block block.identifier = block.labels[1]?) ∧
    (∀ block : Block,
      block.identifier = "variable" ∨ block.identifier = "output" ∨
        block.identifier = "locals" →
      get_block_name block block.identifier = block.labels[0]?) ∧
    valid_name_is_match "good_name" = true ∧
    valid_name_is_match "BadName" = false ∧
    ResourceNamingConventionRule.check_hcl
      ⟨[], [Block.mk "resource" ["aws_instance", "BadName"] [] [],
            Block.mk "resource" ["aws_instance", "good_name"] [] []]⟩
      "resource \"aws_instance\" \"BadName\" \x7b\x7d\nresource \"aws_instance\" \"good_name\" \x7b\x7d".toList =
      [create_naming_convention_diagnostic "resource" "BadName"
        "resource \"aws_instance\" \"BadName\" \x7b\x7d\nresource \"aws_instance\" \"good_name\" \x7b\x7d".toList] := by
  refine ⟨?_, naming_check_length, ?_, ?_, by decide, by decide, by decide⟩
  · intro body text d hd
    exact naming_check_mem body text hd
  · intro block h
    unfold get_block_name
    rw [if_pos h]
  · intro block h
    unfold get_block_name
    have hne : ¬(block.identifier = "resource" ∨ block.identifier = "data") := by
      rcases h with h | h | h <;> rw [h] <;> decide
    rw [if_neg hne, if_pos h]

theorem naming_convention_spec_witness :
    get_block_name (Block.mk "resource" ["aws_instance", "BadName"] [] [])
        (Block.mk "resource" ["aws_instance", "BadName"] [] []).identifier =
      (Block.mk "resource" ["aws_instance", "BadName"] [] []).labels[1]? :=
  naming_convention_spec.2.2.1
    (Block.mk "resource" ["aws_instance", "BadName"] [] []) (Or.inl rfl)

theorem offset_to_position_zero (t : List Char) :
    offset_to_position 0 t = ⟨0, 0⟩ := by
  cases t with
  | nil => rfl
  | cons c cs => simp [offset_to_position, otpAux]

theorem var_desc_check_length (body : Body) (text : List Char) :
    (VariableDescriptionRequiredRule.check_hcl body text).length =
      body.blocks.countP var_desc_violation := by
  unfold VariableDescriptionRequiredRule.check_hcl
  rw [length_filterMap_eq_countP]
  apply List.countP_congr
  intro b _
  unfold var_desc_violation
  by_cases hid : (b.identifier == "variable") = true
  · rw [if_pos hid]
    cases hn : get_block_name b "variable" with
    | none => simp [hid, hn]
    | some name =>
      by_cases hdesc : has_description_attribute b
      · simp [hid, hn, hdesc]
      · simp [hid, hn, hdesc]
  · rw [if_neg hid]
    simp [hid]

theorem out_desc_check_length (body : Body) (text : List Char) :
    (OutputDescriptionRequiredRule.check_hcl body text).length =
      body.blocks.countP out_desc_violation := by
  unfold OutputDescriptionRequiredRule.check_hcl
  rw [length_filterMap_eq_countP]
  apply List.countP_congr
  intro b _
  unfold out_desc_violation
  by_cases hid : (b.identifier == "output") = true
  · rw [if_pos hid]
    cases hn : get_block_name b "output" with
    | none => simp [hid, hn]
    | some name =>
      by_cases hdesc : has_description_attribute b
      · simp [hid, hn, hdesc]
      · simp [hid, hn, hdesc]
  · rw [if_neg hid]
    simp [hid]

theorem var_desc_check_mem (body : Body) (text : List Char) {d : Diagnostic}
    (hd : d ∈ VariableDescriptionRequiredRule.check_hcl body text) :
    d.severity = "warn" ∧ d.code = some "MISSING_DESCRIPTION" := by
  unfold VariableDescriptionRequiredRule.check_hcl at hd
  rw [List.mem_filterMap] at hd
  obtain ⟨b, _, hb⟩ := hd
  split at hb
  · split at hb
    · split at hb
      · injection hb with hb
        subst hb
        exact ⟨rfl, rfl⟩
      · exact absurd hb (by simp)
    · exact absurd hb (by simp)
  · exact absurd hb (by simp)

theorem var_desc_check_mem_of (body : Body) (text : List Char) {b : Block}
    {name : String} (hb : b ∈ body.blocks) (hid : b.identifier = "variable")
    (hn : get_block_name b "variable" = some name)
    (hd : has_description_attribute b = false) :
    create_missing_description_diagnostic "variable-description-required"
        "variable" name text ∈
      VariableDescriptionRequiredRule.check_hcl body text := by
  unfold VariableDescriptionRequiredRule.check_hcl
  rw [List.mem_filterMap]
  refine ⟨b, hb, ?_⟩
  rw [if_pos (show (b.identifier == "variable") = true by simp [hid]), hn]
  dsimp only
  rw [if_pos (show (!has_description_attribute b) = true by simp [hd])]

theorem missing_desc_diag_range (rule_id bt name : String)
    (text : List Char) :
    (∃ p, findSub text (desc_block_text bt name) = some p ∧
      (create_missing_description_diagnostic rule_id bt name text).range =
        ⟨offset_to_position p text,
         offset_to_position
           (p + utf8LenL (desc_block_text bt name)) text⟩ ∧
      ∃ pre suf, text = pre ++ desc_block_text bt name ++ suf ∧
        utf8LenL pre = p ∧
        ∀ pre' suf',
          text = pre' ++ desc_block_text bt name ++ suf' →
          p ≤ utf8LenL pre') ∨
    (findSub text (desc_block_text bt name) = none ∧
      (create_missing_description_diagnostic rule_id bt name text).range.start =
        ⟨0, 0⟩) := by
  cases hf : findSub text (desc_block_text bt name) with
  | some p =>
    left
    refine ⟨p, rfl, ?_, ?_⟩
    · simp [create_missing_description_diagnostic, hf]
    · obtain ⟨pre, suf, h1, h2⟩ := findSub_decomp hf
      exact ⟨pre, suf, h1, h2, fun pre' suf' hdv => findSub_min hf hdv⟩
  | none =>
    right
    refine ⟨rfl, ?_⟩
    simp [create_missing_description_diagnostic, hf, offset_to_position_zero]

/-- Claim C6: for every parsed document, the Variable- (resp. Output-)
Description-Required rule emits exactly one `warn` diagnostic with code
`MISSING_DESCRIPTION` per labelled `variable` (resp. `output`) block lacking
a `description` attribute, with message "<Variable|Output> '<name>' should
have a description"; the range spans the first occurrence of the text
`<block_type> "<name>"` in the source, or starts at the document start when
that text is absent. -/
theorem description_required_spec :
    (∀ body text, (VariableDescriptionRequiredRule.check_hcl body text).length =
      body.blocks.countP var_desc_violation) ∧
    (∀ body text, (OutputDescriptionRequiredRule.check_hcl body text).length =
      body.blocks.countP out_desc_violation) ∧
    (∀ body text, ∀ d ∈ VariableDescriptionRequiredRule.check_hcl body text,
      d.severity = "warn" ∧ d.code = some "MISSING_DESCRIPTION") ∧
    (∀ body text (b : Block) name, b ∈ body.blocks →
      b.identifier = "variable" → get_block_name b "variable" = some name →
      has_description_attribute b = false →
      create_missing_description_diagnostic "variable-description-required"
          "variable" name text ∈
        VariableDescriptionRequiredRule.check_hcl body text) ∧
    (∀ rule_id bt name text,
      (∃ p, findSub text (desc_block_text bt name) = some p ∧
        (create_missing_description_diagnostic rule_id bt name text).range =
          ⟨offset_to_position p text,
           offset_to_position
             (p + utf8LenL (desc_block_text bt name)) text⟩ ∧
        ∃ pre suf, text = pre ++ desc_block_text bt name ++ suf ∧
          utf8LenL pre = p ∧
          ∀ pre' suf',
            text = pre' ++ desc_block_text bt name ++ suf' →
            p ≤ utf8LenL pre') ∨
      (findSub text (desc_block_text bt name) = none ∧
        (create_missing_description_diagnostic rule_id bt name
          text).range.start = ⟨0, 0⟩)) ∧
    capitalize_first "variable" = "Variable" ∧
    capitalize_first "output" = "Output" ∧
    VariableDescriptionRequiredRule.check_hcl
        ⟨[], [Block.mk "variable" ["x"] [] []]⟩ "variable \"x\" \x7b \x7d".toList =
      [create_missing_description_diagnostic "variable-description-required"
        "variable" "x" "variable \"x\" \x7b \x7d".toList] ∧
    (create_missing_description_diagnostic "variable-description-required"
        "variable" "x" "variable \"x\" \x7b \x7d".toList).message =
      "Variable \x27x\x27 should have a description" ∧
    (create_missing_description_diagnostic "variable-description-required"
        "variable" "x" "variable \"x\" \x7b \x7d".toList).range =
      ⟨⟨0, 0⟩, ⟨0, 12⟩⟩ ∧
    VariableDescriptionRequiredRule.check_hcl
        ⟨[], [Block.mk "variable" ["x"]
          [("description", Expression.str "the x")] []]⟩
        "variable \"x\" \x7b \x7d".toList = [] := by
  refine ⟨var_desc_check_length, out_desc_check_length, ?_,
    var_desc_check_mem_of, missing_desc_diag_range, by decide, by decide,
    by decide, by decide, by decide, by decide⟩
  intro body text d hd
  exact var_desc_check_mem body text hd

theorem description_required_spec_witness :
    create_missing_description_diagnostic "variable-description-required"
        "variable" "x" "variable \"x\" \x7b \x7d".toList ∈
      VariableDescriptionRequiredRule.check_hcl
        ⟨[], [Block.mk "variable" ["x"] [] []]⟩
        "variable \"x\" \x7b \x7d".toList :=
  description_required_spec.2.2.2.1 ⟨[], [Block.mk "variable" ["x"] [] []]⟩
    "variable \"x\" \x7b \x7d".toList (Block.mk "variable" ["x"] [] []) "x"
    (List.mem_cons_self _ _) rfl rfl rfl

theorem provider_entries_length (blk : Block) (text : List Char) :
    (RequireProviderVersionRule.check_provider_entries blk text).length =
      blk.attrs.countP (fun attr => !providerHasVersion attr.2) := by
  unfold RequireProviderVersionRule.check_provider_entries
  rw [length_filterMap_eq_countP]
  apply List.countP_congr
  intro a _
  by_cases hv : (!providerHasVersion a.2) = true
  · simp [hv]
  · simp [hv]

theorem provider_check_length (body : Body) (text : List Char) :
    (RequireProviderVersionRule.check_hcl body text).length =
      provider_violations body := by
  unfold RequireProviderVersionRule.check_hcl provider_violations
  rw [List.length_flatMap]
  apply congrArg List.sum
  apply List.map_congr_left
  intro b _
  simp only [Function.comp]
  by_cases hb : (b.identifier == "terraform") = true
  · rw [if_pos hb, if_pos hb]
    unfold RequireProviderVersionRule.check_required_providers_block
    rw [List.length_flatMap]
    apply congrArg List.sum
    apply List.map_congr_left
    intro nb _
    simp only [Function.comp]
    by_cases hn : (nb.identifier == "required_providers") = true
    · rw [if_pos hn, if_pos hn]
      exact provider_entries_length nb text
    · rw [if_neg hn, if_neg hn]
      rfl
  · rw [if_neg hb, if_neg hb]
    rfl

theorem provider_check_mem (body : Body) (text : List Char) {d : Diagnostic}
    (hd : d ∈ RequireProviderVersionRule.check_hcl body text) :
    d.severity = "warn" ∧ d.code = some "PROVIDER_VERSION" ∧
    ∃ name, d = create_provider_version_diagnostic name text := by
  unfold RequireProviderVersionRule.check_hcl at hd
  rw [List.mem_flatMap] at hd
  obtain ⟨b, _, hd⟩ := hd
  split at hd
  · unfold RequireProviderVersionRule.check_required_providers_block at hd
    rw [List.mem_flatMap] at hd
    obtain ⟨nb, _, hd⟩ := hd
    split at hd
    · unfold RequireProviderVersionRule.check_provider_entries at hd
      rw [List.mem_filterMap] at hd
      obtain ⟨attr, _, hattr⟩ := hd
      split at hattr
      · injection hattr with hattr
        subst hattr
        exact ⟨rfl, rfl, attr.1, rfl⟩
      · exact absurd hattr (by simp)
    · exact absurd hd (by simp)
  · exact absurd hd (by simp)

theorem providerHasVersion_iff (v : Expression) :
    providerHasVersion v = true ↔
      ∃ entries, v = Expression.object entries ∧
        ∃ kv ∈ entries, kv.1 = "version" := by
  cases v with
  | object entries =>
    simp only [providerHasVersion, List.any_eq_true, beq_iff_eq]
    constructor
    · rintro ⟨kv, hkv, hk⟩
      exact ⟨entries, rfl, kv, hkv, hk⟩
    · rintro ⟨entries', heq, kv, hkv, hk⟩
      injection heq with heq
      subst heq
      exact ⟨kv, hkv, hk⟩
  | str s => simp [providerHasVersion]
  | num n => simp [providerHasVersion]
  | boolean b => simp [providerHasVersion]
  | array items => simp [providerHasVersion]
  | other => simp [providerHasVersion]

theorem provider_diag_range (name : String) (text : List Char) :
    (∃ p, findSub text (provider_needle_text name) = some p ∧
      (create_provider_version_diagnostic name text).range =
        ⟨offset_to_position p text,
         offset_to_position (p + utf8LenL name.toList) text⟩ ∧
      ∃ pre suf, text = pre ++ provider_needle_text name ++ suf ∧
        utf8LenL pre = p ∧
        ∀ pre' suf', text = pre' ++ provider_needle_text name ++ suf' →
          p ≤ utf8LenL pre') ∨
    (findSub text (provider_needle_text name) = none ∧
      (create_provider_version_diagnostic name text).range.start = ⟨0, 0⟩) := by
  cases hf : findSub text (provider_needle_text name) with
  | some p =>
    left
    refine ⟨p, rfl, ?_, ?_⟩
    · simp [create_provider_version_diagnostic, hf]
    · obtain ⟨pre, suf, h1, h2⟩ := findSub_decomp hf
      exact ⟨pre, suf, h1, h2, fun pre' suf' hdv => findSub_min hf hdv⟩
  | none =>
    right
    refine ⟨rfl, ?_⟩
    simp [create_provider_version_diagnostic, hf, offset_to_position_zero]

/-- Claim C7: for every parsed document, the Require-Provider-Version rule
visits every attribute of every `required_providers` block nested in a
top-level `terraform` block; the provider counts as versioned exactly when
its value is an object expression containing a key equal to `version`, and
otherwise one `warn` diagnostic with code `PROVIDER_VERSION` naming the
provider is emitted, whose range starts at the first occurrence of
`<provider_name> =` in the source and spans exactly the provider name's
length; the spec's `aws` example yields exactly one diagnostic, suppressed by
adding a `version` key. -/
theorem provider_version_spec :
    (∀ v, providerHasVersion v = true ↔
      ∃ entries, v = Expression.object entries ∧
        ∃ kv ∈ entries, kv.1 = "version") ∧
    (∀ body text, (RequireProviderVersionRule.check_hcl body text).length =
      provider_violations body) ∧
    (∀ body text, ∀ d ∈ RequireProviderVersionRule.check_hcl body text,
      d.severity = "warn" ∧ d.code = some "PROVIDER_VERSION" ∧
      ∃ name, d = create_provider_version_diagnostic name text) ∧
    (∀ name text,
      (∃ p, findSub text (provider_needle_text name) = some p ∧
        (create_provider_version_diagnostic name text).range =
          ⟨offset_to_position p text,
           offset_to_position (p + utf8LenL name.toList) text⟩ ∧
        ∃ pre suf, text = pre ++ provider_needle_text name ++ suf ∧
          utf8LenL pre = p ∧
          ∀ pre' suf', text = pre' ++ provider_needle_text name ++ suf' →
            p ≤ utf8LenL pre') ∨
      (findSub text (provider_needle_text name) = none ∧
        (create_provider_version_diagnostic name text).range.start =
          ⟨0, 0⟩)) ∧
    RequireProviderVersionRule.check_hcl
        ⟨[], [Block.mk "terraform" [] []
          [Block.mk "required_providers" []
            [("aws", Expression.object
              [("source", Expression.str "hashicorp/aws")])] []]]⟩
        "terraform \x7b\n  required_providers \x7b\n    aws = \x7b\n      source = \"hashicorp/aws\"\n    \x7d\n  \x7d\n\x7d".toList =
      [create_provider_version_diagnostic "aws"
        "terraform \x7b\n  required_providers \x7b\n    aws = \x7b\n      source = \"hashicorp/aws\"\n    \x7d\n  \x7d\n\x7d".toList] ∧
    (create_provider_version_diagnostic "aws"
        "terraform \x7b\n  required_providers \x7b\n    aws = \x7b\n      source = \"hashicorp/aws\"\n    \x7d\n  \x7d\n\x7d".toList).range =
      ⟨⟨2, 4⟩, ⟨2, 7⟩⟩ ∧
    RequireProviderVersionRule.check_hcl
        ⟨[], [Block.mk "terraform" [] []
          [Block.mk "required_providers" []
            [("aws", Expression.object
              [("source", Expression.str "hashicorp/aws"),
               ("version", Expression.str "~> 4.0")])] []]]⟩
        "terraform \x7b\n  required_providers \x7b\n    aws = \x7b\n      source = \"hashicorp/aws\"\n    \x7d\n  \x7d\n\x7d".toList = [] := by
  refine ⟨providerHasVersion_iff, provider_check_length, ?_,
    provider_diag_range, by decide, by decide, by decide⟩
  intro body text d hd
  exact provider_check_mem body text hd

theorem provider_version_spec_witness :
    (create_provider_version_diagnostic "aws"
        "terraform \x7b\n  required_providers \x7b\n    aws = \x7b\n      source = \"hashicorp/aws\"\n    \x7d\n  \x7d\n\x7d".toList).severity =
      "warn" :=
  (provider_version_spec.2.2.1
    ⟨[], [Block.mk "terraform" [] []
      [Block.mk "required_providers" []
        [("aws", Expression.object
          [("source", Expression.str "hashicorp/aws")])] []]]⟩
    "terraform \x7b\n  required_providers \x7b\n    aws = \x7b\n      source = \"hashicorp/aws\"\n    \x7d\n  \x7d\n\x7d".toList
    (create_provider_version_diagnostic "aws"
      "terraform \x7b\n  required_providers \x7b\n    aws = \x7b\n      source = \"hashicorp/aws\"\n    \x7d\n  \x7d\n\x7d".toList)
    (by decide)).1
